import Mathlib

/-!
Verification development for the tinyexpr expression engine
(tinyexpr.c: lexer, recursive-descent parser, tree-walking evaluator and
constant-folding optimizer).

The C code computes with IEEE-754 doubles.  The model idealizes a double as
either NaN, a signed infinity, or an exact rational number; rounding of finite
results to binary floating point (and hence overflow to infinity) is not
modelled.  All arithmetic below is written with kernel-reducible rational
primitives (mkRat, Rat.blt, Rat.floor) so that concrete runs of the model
evaluate by rfl and decide.
-/

namespace Tinyexpr

/-- Model of a C double: NaN, a signed infinity (pos = true for +inf), or a
finite value, idealized as an exact rational. -/
inductive TD where
  | nan
  | inf (pos : Bool)
  | fin (q : ℚ)
deriving DecidableEq

/- Kernel-reducible rational arithmetic (Rat.add etc. are irreducible, so the
model computes through mkRat on numerators and denominators instead). -/

def qadd (a b : ℚ) : ℚ := mkRat (a.num * b.den + b.num * a.den) (a.den * b.den)

def qsub (a b : ℚ) : ℚ := mkRat (a.num * b.den - b.num * a.den) (a.den * b.den)

def qmul (a b : ℚ) : ℚ := mkRat (a.num * b.num) (a.den * b.den)

def qneg (a : ℚ) : ℚ := mkRat (-a.num) a.den

def qdiv (a b : ℚ) : ℚ := mkRat (a.num * b.den * b.num.sign) (a.den * b.num.natAbs)

def qltB (a b : ℚ) : Bool := Rat.blt a b

def qleB (a b : ℚ) : Bool := !(Rat.blt b a)

/-- Truncation toward zero of a rational, as in a C cast of a double to an
integer type (defined where the C behavior is defined). -/
def c_trunc (q : ℚ) : ℤ :=
  if 0 ≤ q.num then q.num / (q.den : ℤ) else -((-q.num) / (q.den : ℤ))

/-- C round(): round to nearest, ties away from zero. -/
def c_round (q : ℚ) : ℤ :=
  if 0 ≤ q.num then (qadd q (mkRat 1 2)).floor else -((qadd (qneg q) (mkRat 1 2)).floor)

/-- Model of the C cast (int)d for a double d.  The C standard leaves the cast
undefined for NaN, infinities and values outside int range; following x86-64
cvttsd2si all those cases produce INT_MIN here. -/
def c_int : TD → ℤ
  | .fin q =>
      let t := c_trunc q
      if t < -(2 ^ 31) ∨ 2 ^ 31 - 1 < t then -(2 ^ 31) else t
  | _ => -(2 ^ 31)

/- C double comparisons: every comparison involving NaN is false. -/

def td_ltB : TD → TD → Bool
  | .fin a, .fin b => qltB a b
  | .inf s, .inf t => !s && t
  | .inf s, .fin _ => !s
  | .fin _, .inf t => t
  | _, _ => false

def td_leB : TD → TD → Bool
  | .fin a, .fin b => qleB a b
  | .inf s, .inf t => !s || t
  | .inf s, .fin _ => !s
  | .fin _, .inf t => t
  | _, _ => false

def td_gtB (a b : TD) : Bool := td_ltB b a

def td_geB (a b : TD) : Bool := td_leB b a

def td_eqB : TD → TD → Bool
  | .fin a, .fin b => a == b
  | .inf s, .inf t => s == t
  | _, _ => false

/- IEEE-style arithmetic on the double model (finite results kept exact). -/

def td_add : TD → TD → TD
  | .nan, _ => .nan
  | _, .nan => .nan
  | .inf s, .inf t => if s == t then .inf s else .nan
  | .inf s, .fin _ => .inf s
  | .fin _, .inf t => .inf t
  | .fin a, .fin b => .fin (qadd a b)

def td_sub : TD → TD → TD
  | .nan, _ => .nan
  | _, .nan => .nan
  | .inf s, .inf t => if s == t then .nan else .inf s
  | .inf s, .fin _ => .inf s
  | .fin _, .inf t => .inf (!t)
  | .fin a, .fin b => .fin (qsub a b)

def td_mul : TD → TD → TD
  | .nan, _ => .nan
  | _, .nan => .nan
  | .inf s, .inf t => .inf (s == t)
  | .inf s, .fin q => if q == 0 then .nan else .inf (s == qltB 0 q)
  | .fin q, .inf t => if q == 0 then .nan else .inf (t == qltB 0 q)
  | .fin a, .fin b => .fin (qmul a b)

def td_div : TD → TD → TD
  | .nan, _ => .nan
  | _, .nan => .nan
  | .inf _, .inf _ => .nan
  | .inf s, .fin q => .inf (s == qleB 0 q)
  | .fin _, .inf _ => .fin 0
  | .fin a, .fin b =>
      if b == 0 then
        if a == 0 then .nan else .inf (qltB 0 a)
      else .fin (qdiv a b)

def td_negate : TD → TD
  | .nan => .nan
  | .inf s => .inf (!s)
  | .fin q => .fin (qneg q)

/-- C fmod: a - b * trunc(a/b); NaN when a is infinite or b is zero. -/
def td_fmod : TD → TD → TD
  | .nan, _ => .nan
  | _, .nan => .nan
  | .inf _, _ => .nan
  | .fin a, .inf _ => .fin a
  | .fin a, .fin b =>
      if b == 0 then .nan
      else .fin (qsub a (qmul b (mkRat (c_trunc (qdiv a b)) 1)))

/-- The C comma operator callable: returns its right argument. -/
def td_comma (_ b : TD) : TD := b

def qpowN (a : ℚ) : ℕ → ℚ
  | 0 => 1
  | k + 1 => qmul a (qpowN a k)

def qinv (a : ℚ) : ℚ := mkRat ((a.den : ℤ) * a.num.sign) a.num.natAbs

/-- Partial model of the host pow: exact on finite bases with integer
exponents; other cases (non-integer exponents, infinities) are host-library
behavior out of scope for the spec and are modelled as NaN. -/
def td_pow : TD → TD → TD
  | .fin a, .fin b =>
      if b.den = 1 then
        if a == 0 ∧ b.num < 0 then .inf true
        else if 0 ≤ b.num then .fin (qpowN a b.num.toNat)
        else .fin (qinv (qpowN a (-b.num).toNat))
      else .nan
  | _, _ => .nan

def td_fabs : TD → TD
  | .nan => .nan
  | .inf _ => .inf true
  | .fin q => .fin (mkRat q.num.natAbs 1 * mkRat 1 q.den)

def td_floor : TD → TD
  | .fin q => .fin (mkRat q.floor 1)
  | x => x

def td_ceil : TD → TD
  | .fin q => .fin (mkRat q.ceil 1)
  | x => x

/-- Abstract model of the remaining unary host math functions (sin, cos,
sqrt, logarithms, factorial family, ...).  Their numeric semantics are out of
scope for this spec (they follow the host math library); no claim depends on
their values, so they are modelled as a constant NaN map. -/
def host_fn1 : TD → TD := fun _ => .nan

/-- Abstract model of the binary host math functions (atan2, ncr, npr). -/
def host_fn2 : TD → TD → TD := fun _ _ => .nan

/-- The pi constant of the builtin table (value of the C decimal literal). -/
def td_pi : TD := .fin (mkRat 314159265358979323846 100000000000000000000)

/-- The e constant of the builtin table (value of the C decimal literal). -/
def td_e : TD := .fin (mkRat 271828182845904523536 100000000000000000000)

/- Bitwise operators over 53-bit values (MAX_BITWISE_WIDTH = 53). -/

/-- The double (2^53 - 1), the largest valid bitwise operand after rounding. -/
def maxBitQ : ℚ := mkRat (2 ^ 53 - 1) 1

def td_round : TD → TD
  | .fin q => .fin (mkRat (c_round q) 1)
  | x => x

def is_valid_bitwise_operand (x : TD) : Bool :=
  if td_ltB x (.fin 0) then false
  else td_leB (td_round x) (.fin maxBitQ)

def bitwise_and (a b : TD) : TD :=
  if !(is_valid_bitwise_operand a) || !(is_valid_bitwise_operand b) then .nan
  else
    match a, b with
    | .fin qa, .fin qb => .fin (mkRat ((c_round qa).toNat &&& (c_round qb).toNat) 1)
    | _, _ => .nan

def bitwise_or (a b : TD) : TD :=
  if !(is_valid_bitwise_operand a) || !(is_valid_bitwise_operand b) then .nan
  else
    match a, b with
    | .fin qa, .fin qb => .fin (mkRat ((c_round qa).toNat ||| (c_round qb).toNat) 1)
    | _, _ => .nan

def fn_xor (a b : TD) : TD :=
  if !(is_valid_bitwise_operand a) || !(is_valid_bitwise_operand b) then .nan
  else
    match a, b with
    | .fin qa, .fin qb => .fin (mkRat ((c_round qa).toNat ^^^ (c_round qb).toNat) 1)
    | _, _ => .nan

/-- Model of the bit(n, i) builtin: tests bit i of round(n).  The C cast of a
non-finite double is undefined; modelled as NaN. -/
def fn_bit (n i : TD) : TD :=
  if td_ltB n (.fin 0) || td_ltB i (.fin 0) then .nan
  else
    match n, i with
    | .fin qn, .fin qi =>
        let iv := c_round qn
        let bi := c_round qi
        if 2 ^ 53 - 1 < iv ∨ 53 ≤ bi then .nan
        else if iv.toNat / 2 ^ bi.toNat % 2 = 1 then .fin 1 else .fin 0
    | _, _ => .nan

/- Memory: bound pointers are abstract addresses; the caller's heap maps an
address and a word offset to a double.  A scalar variable bound to p reads
(m p 0); an array bound to p has its length at offset 0 and data at 1..len. -/

abbrev Ptr := ℕ

abbrev Mem := Ptr → ℕ → TD

/- The array-aggregate callables (arr[0] = length; arr[1..length] = data). -/

def te_sum_loop (a : ℕ → TD) : TD → ℕ → ℕ → TD
  | acc, _, 0 => acc
  | acc, i, r + 1 => te_sum_loop a (td_add acc (a i)) (i + 1) r

def te_sum (a : ℕ → TD) : TD :=
  te_sum_loop a (.fin 0) 1 (c_int (a 0)).toNat

def te_arrmin_loop (a : ℕ → TD) : TD → ℕ → ℕ → TD
  | cur, _, 0 => cur
  | cur, i, r + 1 =>
      te_arrmin_loop a (if td_ltB (a i) cur then a i else cur) (i + 1) r

def te_arrmin (a : ℕ → TD) : TD :=
  let len := c_int (a 0)
  if len < 1 then .nan else te_arrmin_loop a (a 1) 2 (len - 1).toNat

def te_arrmax_loop (a : ℕ → TD) : TD → ℕ → ℕ → TD
  | cur, _, 0 => cur
  | cur, i, r + 1 =>
      te_arrmax_loop a (if td_gtB (a i) cur then a i else cur) (i + 1) r

def te_arrmax (a : ℕ → TD) : TD :=
  let len := c_int (a 0)
  if len < 1 then .nan else te_arrmax_loop a (a 1) 2 (len - 1).toNat

def te_arrlen (a : ℕ → TD) : TD := a 0

/-- Segment search of te_lerp: i counts 0 .. n-2; d and r index from the data
(element k of the C arrays d, r is offset k+1 in memory). -/
def te_lerp_loop (dm rm : ℕ → TD) (x : TD) (asc : Bool) : ℕ → ℕ → TD
  | _, 0 => .nan
  | i, r + 1 =>
      let d0 := dm (i + 1)
      let d1 := dm (i + 2)
      let r0 := rm (i + 1)
      let r1 := rm (i + 2)
      let inRange := if asc then td_geB x d0 && td_leB x d1
                     else td_leB x d0 && td_geB x d1
      if inRange then
        if td_eqB d1 d0 then td_div (td_add r0 r1) (.fin 2)
        else td_add r0 (td_mul (td_div (td_sub x d0) (td_sub d1 d0)) (td_sub r1 r0))
      else te_lerp_loop dm rm x asc (i + 1) r

def te_lerp (dm rm : ℕ → TD) (x : TD) : TD :=
  let n := c_int (dm 0)
  if c_int (rm 0) ≠ n ∨ n < 2 then .nan
  else
    let asc := td_gtB (dm ((n - 1).toNat + 1)) (dm 1)
    te_lerp_loop dm rm x asc 0 (n - 1).toNat

/- The AST.  A node's callable payload: the evaluator compares the stored
function pointer against te_sum/te_arrlen/te_arrmin/te_arrmax/te_lerp, so
those five carry identity tags; every other callable is a plain function of
the evaluated arguments. -/

inductive FnPtr where
  | fsum
  | farrlen
  | farrmin
  | farrmax
  | flerp
  | plain (g : List TD → TD)

def lift0 (v : TD) : List TD → TD
  | [] => v
  | _ => .nan

def lift1 (g : TD → TD) : List TD → TD
  | [a] => g a
  | _ => .nan

def lift2 (g : TD → TD → TD) : List TD → TD
  | [a, b] => g a b
  | _ => .nan

/-- AST node (te_expr).  The C node stores a type code combining a kind tag,
a 3-bit arity and the purity flag, plus a union of value / bound pointer /
function pointer and an inline parameter array; closures additionally store
their opaque context after the parameters.  (The node kind enum lives in
tinyexpr.h, which is not part of the sources; kinds and payloads are modelled
from the spec data model, section 3.) -/
inductive TE where
  | const (v : TD)
  | var (p : Ptr)
  | arr (p : Ptr) (idx : TE)
  | func (pu : Bool) (ar : ℕ) (g : FnPtr) (args : List TE)
  | clos (pu : Bool) (ar : ℕ) (g : ℕ → List TD → TD) (ctx : ℕ) (args : List TE)

def TE.isConst : TE → Bool
  | .const _ => true
  | _ => false

def TE.isVarB : TE → Bool
  | .var _ => true
  | _ => false

/-- Aggregate dispatch of te_eval for a FUNCTION1 node whose callable is
te_sum / te_arrlen / te_arrmin / te_arrmax: the first parameter node must be
a variable node, whose bound pointer is passed to the callable without
evaluating the parameter; otherwise NaN. -/
def evalAgg (m : Mem) (agg : (ℕ → TD) → TD) : List TE → TD
  | .var p :: _ => agg (fun i => m p i)
  | _ => .nan

/-- The te_lerp dispatch of te_eval for a FUNCTION3 node: the first two
parameter nodes must be variable nodes, whose bound pointers are passed to
te_lerp together with the evaluated third argument; otherwise NaN. -/
def evalLerpArgs (m : Mem) (x : TD) : TE → TE → TD
  | .var dp, .var rp => te_lerp (fun i => m dp i) (fun i => m rp i) x
  | _, _ => .nan

mutual

/-- The evaluator (te_eval).  Dispatch follows the C switch on the masked
node type: constants and variables read directly; an array-index node
truncates the evaluated index and bound-checks it against the stored length;
a FUNCTION3 node whose callable is te_lerp and a FUNCTION1 node whose
callable is one of the aggregates receive the bound pointer of their
variable-node arguments (NaN if an array argument is not a variable node);
every other function or closure evaluates its children left to right and
applies the callable. -/
def te_eval (m : Mem) : TE → TD
  | .const v => v
  | .var p => m p 0
  | .arr p ix =>
      let len := c_int (m p 0)
      let idx := c_int (te_eval m ix)
      if idx < 0 ∨ len ≤ idx then .nan else m p (idx.toNat + 1)
  | .func _ 3 .flerp args =>
      (match args with
       | d :: r :: xe :: _ => evalLerpArgs m (te_eval m xe) d r
       | _ => .nan)
  | .func _ 1 .fsum args => evalAgg m te_sum args
  | .func _ 1 .farrlen args => evalAgg m te_arrlen args
  | .func _ 1 .farrmin args => evalAgg m te_arrmin args
  | .func _ 1 .farrmax args => evalAgg m te_arrmax args
  | .func _ ar g args =>
      (match g with
       | .plain gf => if ar ≤ 7 ∧ args.length = ar then gf (te_evalList m args) else .nan
       | _ => .nan)
  | .clos _ ar g ctx args =>
      if ar ≤ 7 ∧ args.length = ar then g ctx (te_evalList m args) else .nan

def te_evalList (m : Mem) : List TE → List TD
  | [] => []
  | a :: as => te_eval m a :: te_evalList m as

end

mutual

/-- The constant-folding pass (optimize).  Constants and variables are left
alone; a pure function or closure node whose children (after recursive
optimization) are all constants is replaced by a literal holding its value
under the heap m at optimization time; array-index nodes and impure nodes
are not pure and are left untouched (their children included). -/
def optimize (m : Mem) : TE → TE
  | .const v => .const v
  | .var p => .var p
  | .arr p ix => .arr p ix
  | .func pu ar g args =>
      if pu then
        let args' := optimizeList m args
        if args'.all TE.isConst then .const (te_eval m (.func pu ar g args'))
        else .func pu ar g args'
      else .func pu ar g args
  | .clos pu ar g ctx args =>
      if pu then
        let args' := optimizeList m args
        if args'.all TE.isConst then .const (te_eval m (.clos pu ar g ctx args'))
        else .clos pu ar g ctx args'
      else .clos pu ar g ctx args

def optimizeList (m : Mem) : List TE → List TE
  | [] => []
  | a :: as => optimize m a :: optimizeList m as

end

/- ------------------------------------------------------------------ -/
/- Symbol tables, lexer and parser.                                    -/
/- ------------------------------------------------------------------ -/

/-- A symbol-table entry (te_variable): a name plus a kind.  A scalar or
array variable carries a bound address; functions and closures carry a
purity flag, an arity and a callable (te_variable is declared in tinyexpr.h,
which is not among the sources; fields are modelled from the spec symbol
descriptor, sections 3 and 6). -/
inductive TeKind where
  | scalar (addr : Ptr)
  | fn (pu : Bool) (ar : ℕ) (g : FnPtr)
  | cl (pu : Bool) (ar : ℕ) (g : ℕ → List TD → TD) (ctx : ℕ)

structure TeVar where
  name : List Char
  kind : TeKind

/-- The builtin table (functions[] in the source), alphabetical by name.
Host math functions whose numeric behavior is out of scope are modelled with
host_fn1 / host_fn2 (see above); all entries are pure. -/
def functions : List TeVar := [
  ⟨"abs".toList, .fn true 1 (.plain (lift1 td_fabs))⟩,
  ⟨"acos".toList, .fn true 1 (.plain (lift1 host_fn1))⟩,
  ⟨"arrlen".toList, .fn true 1 .farrlen⟩,
  ⟨"arrmax".toList, .fn true 1 .farrmax⟩,
  ⟨"arrmin".toList, .fn true 1 .farrmin⟩,
  ⟨"asin".toList, .fn true 1 (.plain (lift1 host_fn1))⟩,
  ⟨"atan".toList, .fn true 1 (.plain (lift1 host_fn1))⟩,
  ⟨"atan2".toList, .fn true 2 (.plain (lift2 host_fn2))⟩,
  ⟨"bit".toList, .fn true 2 (.plain (lift2 fn_bit))⟩,
  ⟨"ceil".toList, .fn true 1 (.plain (lift1 td_ceil))⟩,
  ⟨"cos".toList, .fn true 1 (.plain (lift1 host_fn1))⟩,
  ⟨"cosh".toList, .fn true 1 (.plain (lift1 host_fn1))⟩,
  ⟨"e".toList, .fn true 0 (.plain (lift0 td_e))⟩,
  ⟨"exp".toList, .fn true 1 (.plain (lift1 host_fn1))⟩,
  ⟨"fac".toList, .fn true 1 (.plain (lift1 host_fn1))⟩,
  ⟨"floor".toList, .fn true 1 (.plain (lift1 td_floor))⟩,
  ⟨"linear_interpolate".toList, .fn true 3 .flerp⟩,
  ⟨"ln".toList, .fn true 1 (.plain (lift1 host_fn1))⟩,
  ⟨"log".toList, .fn true 1 (.plain (lift1 host_fn1))⟩,
  ⟨"log10".toList, .fn true 1 (.plain (lift1 host_fn1))⟩,
  ⟨"ncr".toList, .fn true 2 (.plain (lift2 host_fn2))⟩,
  ⟨"npr".toList, .fn true 2 (.plain (lift2 host_fn2))⟩,
  ⟨"pi".toList, .fn true 0 (.plain (lift0 td_pi))⟩,
  ⟨"pow".toList, .fn true 2 (.plain (lift2 td_pow))⟩,
  ⟨"sin".toList, .fn true 1 (.plain (lift1 host_fn1))⟩,
  ⟨"sinh".toList, .fn true 1 (.plain (lift1 host_fn1))⟩,
  ⟨"sqrt".toList, .fn true 1 (.plain (lift1 host_fn1))⟩,
  ⟨"sum".toList, .fn true 1 .fsum⟩,
  ⟨"tan".toList, .fn true 1 (.plain (lift1 host_fn1))⟩,
  ⟨"tanh".toList, .fn true 1 (.plain (lift1 host_fn1))⟩,
  ⟨"xor".toList, .fn true 2 (.plain (lift2 fn_xor))⟩]

/-- The combined comparison used by find_builtin: strncmp of the token's
characters against an entry name over the token's length, then, on a tie,
the negated entry character at the token's length (0 exactly when the entry
ends there). -/
def compareToken : List Char → List Char → ℤ
  | [], [] => 0
  | [], e :: _ => -(e.toNat : ℤ)
  | t :: _, [] => (t.toNat : ℤ)
  | t :: ts, e :: es => if t = e then compareToken ts es else ((t.toNat : ℤ) - (e.toNat : ℤ))

/-- Binary search over the builtin table (imin/imax bounds as in the C,
with fuel standing in for the loop). -/
def find_builtin_loop (nm : List Char) : ℕ → ℤ → ℤ → Option TeVar
  | 0, _, _ => none
  | fl + 1, imin, imax =>
      if imax < imin then none
      else
        let i := imin + (imax - imin) / 2
        match (functions.get? i.toNat : Option TeVar) with
        | none => none
        | some v =>
            let c := compareToken nm v.name
            if c = 0 then some v
            else if 0 < c then find_builtin_loop nm fl (i + 1) imax
            else find_builtin_loop nm fl imin (i - 1)

def find_builtin (nm : List Char) : Option TeVar :=
  find_builtin_loop nm 64 0 ((functions.length : ℤ) - 1)

/-- Linear search of the caller's table: first entry whose whole name equals
the token's characters. -/
def find_lookup (lk : List TeVar) (nm : List Char) : Option TeVar :=
  lk.find? (fun v => v.name == nm)

/-- Binary infix operator identities carried by tokens; the parser loops
compare the token's function pointer against add/sub/mul/divide/fmod/pow and
the bitwise pair, so these are tags here. -/
inductive BinOp where
  | badd
  | bsub
  | bmul
  | bdiv
  | bpow
  | bmod
  | band
  | bor
deriving DecidableEq

def binFn : BinOp → TD → TD → TD
  | .badd => td_add
  | .bsub => td_sub
  | .bmul => td_mul
  | .bdiv => td_div
  | .bpow => td_pow
  | .bmod => td_fmod
  | .band => bitwise_and
  | .bor => bitwise_or

/-- Token kinds (the TOK_ constants plus the token payload union). -/
inductive Tok where
  | tnull
  | terror
  | tend
  | tsep
  | topen
  | tclose
  | topenB
  | tcloseB
  | tnumber (v : TD)
  | tvariable (p : Ptr)
  | tinfixOp (op : BinOp)
  | tfun (pu : Bool) (ar : ℕ) (g : FnPtr)
  | tclos (pu : Bool) (ar : ℕ) (g : ℕ → List TD → TD) (ctx : ℕ)

def Tok.isSep : Tok → Bool
  | .tsep => true
  | _ => false

def Tok.isOpen : Tok → Bool
  | .topen => true
  | _ => false

def Tok.isClose : Tok → Bool
  | .tclose => true
  | _ => false

def Tok.isOpenB : Tok → Bool
  | .topenB => true
  | _ => false

def Tok.isCloseB : Tok → Bool
  | .tcloseB => true
  | _ => false

def Tok.isEnd : Tok → Bool
  | .tend => true
  | _ => false

def Tok.isErr : Tok → Bool
  | .terror => true
  | _ => false

/-- Lexer / parser state: the not-yet-consumed input (s.next), the current
token (s.type plus the payload union), and the caller's symbol table. -/
structure PState where
  rest : List Char
  ttype : Tok
  lookup : List TeVar

def errState (s : PState) : PState := { s with ttype := .terror }

def cIsDigit (c : Char) : Bool := '0' ≤ c && c ≤ '9'

def cIsAlpha (c : Char) : Bool := ('a' ≤ c && c ≤ 'z') || ('A' ≤ c && c ≤ 'Z')

def cIsIdent (c : Char) : Bool := cIsAlpha c || cIsDigit c || c = '_'

/-- Digit run: accumulated value, count of digits, remaining input. -/
def digitsAux : List Char → ℕ → ℕ → ℕ × ℕ × List Char
  | [], acc, cnt => (acc, cnt, [])
  | c :: cs, acc, cnt =>
      if cIsDigit c then digitsAux cs (10 * acc + (c.toNat - 48)) (cnt + 1)
      else (acc, cnt, c :: cs)

def qpow10 (e : ℕ) (pos : Bool) : ℚ :=
  if pos then mkRat (10 ^ e) 1 else mkRat 1 (10 ^ e)

/-- Optional decimal exponent of strtod: consumed only when at least one
digit follows the (optionally signed) e/E marker, otherwise rolled back. -/
def expPart (m : ℚ) (used : ℕ) : List Char → ℚ × ℕ
  | c :: cs =>
      if c = 'e' ∨ c = 'E' then
        match cs with
        | sc :: cs2 =>
            if sc = '+' then
              let (ev, ec, _) := digitsAux cs2 0 0
              if ec = 0 then (m, used) else (qmul m (qpow10 ev true), used + 2 + ec)
            else if sc = '-' then
              let (ev, ec, _) := digitsAux cs2 0 0
              if ec = 0 then (m, used) else (qmul m (qpow10 ev false), used + 2 + ec)
            else
              let (ev, ec, _) := digitsAux cs 0 0
              if ec = 0 then (m, used) else (qmul m (qpow10 ev true), used + 1 + ec)
        | [] => (m, used)
      else (m, used)
  | [] => (m, used)

/-- Model of strtod as used by the lexer (first char is a digit or a dot):
integer part, optional fraction, optional decimal exponent; returns the
value and the number of characters consumed (0 when no digits at all, as for
a lone dot).  Hexadecimal and inf/nan forms of strtod are not modelled. -/
def strtod (cs : List Char) : ℚ × ℕ :=
  let (ip, ic, r1) := digitsAux cs 0 0
  match r1 with
  | '.' :: cs2 =>
      let (fp, fc, r2) := digitsAux cs2 0 0
      if ic + fc = 0 then (0, 0)
      else expPart (mkRat ((ip : ℤ) * 10 ^ fc + fp) (10 ^ fc)) (ic + 1 + fc) r2
  | _ =>
      if ic = 0 then (0, 0)
      else expPart (mkRat (ip : ℤ) 1) ic r1

/-- Token produced for a resolved identifier: the caller's table is searched
first (first match wins), then the builtin table; scalars become variable
tokens, functions and closures carry their type (purity included), callable
and context. -/
def identTok (lk : List TeVar) (nm : List Char) : Tok :=
  match (find_lookup lk nm).orElse (fun _ => find_builtin nm) with
  | none => .terror
  | some v =>
      match v.kind with
      | .scalar p => .tvariable p
      | .fn pu ar g => .tfun pu ar g
      | .cl pu ar g cx => .tclos pu ar g cx

def cIsSpace (c : Char) : Bool := c = ' ' || c = '\t' || c = '\n' || c = '\r'

/-- The operator and structural characters of the lexer switch; any other
non-space, non-alphanumeric character is an error token. -/
def charTok : Char → Tok
  | '+' => .tinfixOp .badd
  | '-' => .tinfixOp .bsub
  | '*' => .tinfixOp .bmul
  | '/' => .tinfixOp .bdiv
  | '^' => .tinfixOp .bpow
  | '%' => .tinfixOp .bmod
  | '&' => .tinfixOp .band
  | '|' => .tinfixOp .bor
  | '(' => .topen
  | ')' => .tclose
  | '[' => .topenB
  | ']' => .tcloseB
  | ',' => .tsep
  | _ => .terror

/-- One advance of the lexer (next_token): skip whitespace, then read a
number, an identifier, an operator or a structural character; end of input
gives TOK_END and any other character TOK_ERROR. -/
def next_token_aux (lk : List TeVar) : List Char → Tok × List Char
  | [] => (.tend, [])
  | c :: cs =>
      if cIsDigit c || c = '.' then
        let (q, used) := strtod (c :: cs)
        (.tnumber (.fin q), (c :: cs).drop used)
      else if cIsAlpha c then
        (identTok lk (c :: cs.takeWhile cIsIdent), cs.dropWhile cIsIdent)
      else if cIsSpace c then next_token_aux lk cs
      else (charTok c, cs)

def next_token (s : PState) : PState :=
  let (t, r) := next_token_aux s.lookup s.rest
  { s with ttype := t, rest := r }

/- ------------------------------------------------------------------ -/
/- Parser.  The mutually recursive C functions list/expr/term/factor/  -/
/- power/base are realized as a record of parsers built by recursion   -/
/- on a fuel bound; every nested call uses the next-lower level, and   -/
/- running out of fuel behaves like the allocation-failure path of     -/
/- the C (a null node without the error flag).                         -/
/- ------------------------------------------------------------------ -/

structure Parsers where
  plist : PState → Option TE × PState
  pexpr : PState → Option TE × PState
  pterm : PState → Option TE × PState
  pfactor : PState → Option TE × PState
  ppower : PState → Option TE × PState
  pbase : PState → Option TE × PState

/-- The left-associative infix loops of expr/term/factor: while the current
token is an infix operator accepted by ops, parse the sub-production and
fold it into a pure FUNCTION2 node. -/
def binLoop (sub : PState → Option TE × PState) (ops : BinOp → Bool) :
    ℕ → TE → PState → Option TE × PState
  | 0, _, s => (none, s)
  | fl + 1, acc, s =>
      match s.ttype with
      | .tinfixOp op =>
          if ops op then
            let s1 := next_token s
            match sub s1 with
            | (none, s2) => (none, s2)
            | (some e, s2) =>
                binLoop sub ops fl (.func true 2 (.plain (lift2 (binFn op))) [acc, e]) s2
          else (some acc, s)
      | _ => (some acc, s)

/-- The comma loop of list: fold further expressions with the comma
callable. -/
def sepLoop (sub : PState → Option TE × PState) :
    ℕ → TE → PState → Option TE × PState
  | 0, _, s => (none, s)
  | fl + 1, acc, s =>
      if s.ttype.isSep then
        let s1 := next_token s
        match sub s1 with
        | (none, s2) => (none, s2)
        | (some e, s2) =>
            sepLoop sub fl (.func true 2 (.plain (lift2 td_comma)) [acc, e]) s2
      else (some acc, s)

/-- The unary-sign loop of power: leading + and - infix tokens, each minus
flipping the sign. -/
def signLoop : ℕ → Bool → PState → Bool × PState
  | 0, neg, s => (neg, s)
  | fl + 1, neg, s =>
      match s.ttype with
      | .tinfixOp .badd => signLoop fl neg (next_token s)
      | .tinfixOp .bsub => signLoop fl (!neg) (next_token s)
      | _ => (neg, s)

/-- The argument loop of base for arity >= 2 calls: for i in 0..arity-1,
advance past ( or , , parse an expr, and stop early (broke = true) when the
token after an argument is not a separator.  Mirrors the C for loop; the
returned flag distinguishes the break exit from normal exhaustion. -/
def argsLoop (pexpr : PState → Option TE × PState) :
    ℕ → PState → Option (List TE) × Bool × PState
  | 0, s => (some [], false, s)
  | r + 1, s =>
      let s1 := next_token s
      match pexpr s1 with
      | (none, s2) => (none, false, s2)
      | (some t, s2) =>
          if s2.ttype.isSep then
            match argsLoop pexpr r s2 with
            | (none, b, s3) => (none, b, s3)
            | (some ts, b, s3) => (some (t :: ts), b, s3)
          else (some [t], true, s2)

/-- Call-argument handling of base for functions and closures of arity >= 2:
require an opening parenthesis, run the argument loop, then require that the
loop broke at the last parameter (i == arity-1) with a close parenthesis;
any failure sets the error state on the node already allocated. -/
def fcall_args (pexpr : PState → Option TE × PState) (ar : ℕ)
    (mk : List TE → TE) (s : PState) : Option TE × PState :=
  if s.ttype.isOpen then
    match argsLoop pexpr ar s with
    | (none, _, s1) => (none, s1)
    | (some args, broke, s1) =>
        if s1.ttype.isClose && broke && args.length = ar then
          (some (mk args), next_token s1)
        else (some (mk args), errState s1)
  else (some (mk []), errState s)

/-- The array-lookup loop (parse_postfix): while the token is an opening
bracket, the left operand must be a variable node; parse a bracketed list as
the index and build an array-index node carrying the variable's bound
pointer.  A non-variable left operand (as arises on a second iteration, when
the left operand is already an array-index node) frees the operand and
fails with the error state. -/
def postfixLoop (plist : PState → Option TE × PState) :
    ℕ → TE → PState → Option TE × PState
  | 0, _, s => (none, s)
  | fl + 1, left, s =>
      if s.ttype.isOpenB then
        match left with
        | .var p =>
            let s1 := next_token s
            match plist s1 with
            | (none, s2) => (none, errState s2)
            | (some idx, s2) =>
                if s2.ttype.isCloseB then
                  postfixLoop plist fl (.arr p idx) (next_token s2)
                else (none, errState s2)
        | _ => (none, errState s)
      else (some left, s)

/-- Function-call tail of base, shared by function and closure tokens: arity
0 takes an optional empty parenthesis pair, arity 1 takes a power, arity
>= 2 takes a parenthesized exact-arity argument list. -/
def funTail (P : Parsers) (ar : ℕ) (mk : List TE → TE) (s : PState) :
    Option TE × PState :=
  let s1 := next_token s
  match ar with
  | 0 =>
      if s1.ttype.isOpen then
        let s2 := next_token s1
        if s2.ttype.isClose then (some (mk []), next_token s2)
        else (some (mk []), errState s2)
      else (some (mk []), s1)
  | 1 =>
      match P.ppower s1 with
      | (none, s2) => (none, s2)
      | (some a, s2) => (some (mk [a]), s2)
  | _ + 2 => fcall_args P.pexpr ar mk s1

/-- base: number, variable with optional array postfix, function or closure
call, parenthesized list; any other token allocates the NaN-valued dummy
node of the C default case and sets the error state. -/
def baseFn (P : Parsers) (f : ℕ) (s : PState) : Option TE × PState :=
  match s.ttype with
  | .tnumber v => (some (.const v), next_token s)
  | .tvariable p => postfixLoop P.plist f (.var p) (next_token s)
  | .tfun pu ar g => funTail P ar (fun args => .func pu ar g args) s
  | .tclos pu ar g cx => funTail P ar (fun args => .clos pu ar g cx args) s
  | .topen =>
      let s1 := next_token s
      match P.plist s1 with
      | (none, s2) => (none, s2)
      | (some t, s2) =>
          if s2.ttype.isClose then (some t, next_token s2) else (some t, errState s2)
  | _ => (some (.var 0), errState s)

/-- power: unary sign loop, then base, negated through a pure FUNCTION1
negate node when the accumulated sign is minus. -/
def powerFn (P : Parsers) (f : ℕ) (s : PState) : Option TE × PState :=
  let (neg, s1) := signLoop f false s
  if neg then
    match P.pbase s1 with
    | (none, s2) => (none, s2)
    | (some b, s2) => (some (.func true 1 (.plain (lift1 td_negate)) [b]), s2)
  else P.pbase s1

def factorFn (P : Parsers) (f : ℕ) (s : PState) : Option TE × PState :=
  match P.ppower s with
  | (none, s1) => (none, s1)
  | (some t, s1) => binLoop P.ppower (fun op => op = .bpow) f t s1

def isTermOp (op : BinOp) : Bool :=
  op = .bmul || op = .bdiv || op = .bmod || op = .bor || op = .band

def termFn (P : Parsers) (f : ℕ) (s : PState) : Option TE × PState :=
  match P.pfactor s with
  | (none, s1) => (none, s1)
  | (some t, s1) => binLoop P.pfactor isTermOp f t s1

def isAddSub (op : BinOp) : Bool := op = .badd || op = .bsub

def exprFn (P : Parsers) (f : ℕ) (s : PState) : Option TE × PState :=
  match P.pterm s with
  | (none, s1) => (none, s1)
  | (some t, s1) => binLoop P.pterm isAddSub f t s1

def listFn (P : Parsers) (f : ℕ) (s : PState) : Option TE × PState :=
  match P.pexpr s with
  | (none, s1) => (none, s1)
  | (some t, s1) => sepLoop P.pexpr f t s1

def failP : PState → Option TE × PState := fun s => (none, s)

def mkParsers : ℕ → Parsers
  | 0 => ⟨failP, failP, failP, failP, failP, failP⟩
  | f + 1 =>
      let P := mkParsers f
      { plist := listFn P f
        pexpr := exprFn P f
        pterm := termFn P f
        pfactor := factorFn P f
        ppower := powerFn P f
        pbase := baseFn P f }

/-- te_compile: lex the first token, parse a list, and demand the end token;
on success optimize under the heap m and report error 0.  A trailing-junk or
error token reports the 1-based offset of the unconsumed input, clamped up
to 1; a null root (the postfix error paths, or exhausted fuel standing in
for allocation failure) reports -1. -/
def te_compile (fuel : ℕ) (m : Mem) (input : List Char) (lk : List TeVar) :
    Option TE × ℤ :=
  let s1 := next_token ⟨input, .tnull, lk⟩
  match (mkParsers fuel).plist s1 with
  | (none, _) => (none, -1)
  | (some root, s2) =>
      if s2.ttype.isEnd then (some (optimize m root), 0)
      else
        let e : ℕ := input.length - s2.rest.length
        (none, if e = 0 then 1 else (e : ℤ))

/-- te_interp: compile with an empty symbol table and evaluate; NaN on a
compile failure. -/
def te_interp (fuel : ℕ) (m : Mem) (input : List Char) : TD :=
  match te_compile fuel m input [] with
  | (some n, _) => te_eval m n
  | (none, _) => .nan

/- ------------------------------------------------------------------ -/
/- Theorems.                                                           -/
/- ------------------------------------------------------------------ -/

theorem optimizeList_length (m : Mem) : ∀ l : List TE, (optimizeList m l).length = l.length
  | [] => rfl
  | a :: as => by rw [optimizeList, List.length_cons, List.length_cons, optimizeList_length m as]

theorem optimize_isVarB (m : Mem) (a : TE) : (optimize m a).isVarB = a.isVarB := by
  cases a <;> first
  | rfl
  | (simp only [optimize]; split <;> (try split) <;> rfl)

theorem evalAgg_not_var (m : Mem) (agg : (ℕ → TD) → TD) (b : TE) (rest : List TE)
    (h : b.isVarB = false) : evalAgg m agg (b :: rest) = .nan := by
  cases b <;> simp_all [evalAgg, TE.isVarB]

theorem evalLerpArgs_nv_left (m : Mem) (x : TD) (d r : TE) (h : d.isVarB = false) :
    evalLerpArgs m x d r = .nan := by
  cases d <;> cases r <;> simp_all [evalLerpArgs, TE.isVarB]

theorem evalLerpArgs_nv_right (m : Mem) (x : TD) (d r : TE) (h : r.isVarB = false) :
    evalLerpArgs m x d r = .nan := by
  cases d <;> cases r <;> simp_all [evalLerpArgs, TE.isVarB]

theorem evalAgg_opt (m : Mem) (agg : (ℕ → TD) → TD) :
    ∀ args : List TE, evalAgg m agg (optimizeList m args) = evalAgg m agg args
  | [] => rfl
  | a :: as => by
      rw [optimizeList]
      cases a with
      | var p => rfl
      | const v => rfl
      | arr p ix => rfl
      | func pu ar g args =>
          rw [evalAgg_not_var m agg (optimize m (.func pu ar g args)) (optimizeList m as)
                (by rw [optimize_isVarB]; rfl),
              evalAgg_not_var m agg (.func pu ar g args) as rfl]
      | clos pu ar g cx args =>
          rw [evalAgg_not_var m agg (optimize m (.clos pu ar g cx args)) (optimizeList m as)
                (by rw [optimize_isVarB]; rfl),
              evalAgg_not_var m agg (.clos pu ar g cx args) as rfl]

theorem isVarB_var (t : TE) (h : t.isVarB = true) : ∃ p, t = .var p := by
  cases t <;> simp_all [TE.isVarB]

theorem evalLerpArgs_opt (m : Mem) (x : TD) (d r : TE) :
    evalLerpArgs m x (optimize m d) (optimize m r) = evalLerpArgs m x d r := by
  have hd := optimize_isVarB m d
  have hr := optimize_isVarB m r
  cases hdv : d.isVarB with
  | false =>
      rw [evalLerpArgs_nv_left m x (optimize m d) (optimize m r) (by rw [hd, hdv]),
          evalLerpArgs_nv_left m x d r hdv]
  | true =>
      obtain ⟨p, rfl⟩ := isVarB_var d hdv
      cases hrv : r.isVarB with
      | false =>
          rw [evalLerpArgs_nv_right m x (optimize m (.var p)) (optimize m r) (by rw [hr, hrv]),
              evalLerpArgs_nv_right m x (.var p) r hrv]
      | true =>
          obtain ⟨q, rfl⟩ := isVarB_var r hrv
          rfl

mutual

theorem opt_pres (m : Mem) : (t : TE) → te_eval m (optimize m t) = te_eval m t
  | .const _ => rfl
  | .var _ => rfl
  | .arr _ _ => rfl
  | .func pu ar g args => by
      have hlen := optimizeList_length m args
      have hlist := opt_pres_list m args
      have hcong : te_eval m (.func pu ar g (optimizeList m args)) =
          te_eval m (.func pu ar g args) := by
        rcases g with _ | _ | _ | _ | _ | gf
        case fsum =>
          rcases ar with _ | (_ | ar2)
          · rfl
          · exact evalAgg_opt m te_sum args
          · simp [te_eval]
        case farrlen =>
          rcases ar with _ | (_ | ar2)
          · rfl
          · exact evalAgg_opt m te_arrlen args
          · simp [te_eval]
        case farrmin =>
          rcases ar with _ | (_ | ar2)
          · rfl
          · exact evalAgg_opt m te_arrmin args
          · simp [te_eval]
        case farrmax =>
          rcases ar with _ | (_ | ar2)
          · rfl
          · exact evalAgg_opt m te_arrmax args
          · simp [te_eval]
        case flerp =>
          rcases ar with _ | (_ | (_ | (_ | ar4)))
          · rfl
          · rfl
          · rfl
          · rcases args with _ | ⟨d, _ | ⟨r, _ | ⟨xe, rest⟩⟩⟩
            · rfl
            · rfl
            · rfl
            · simp only [optimizeList, te_evalList] at hlist
              injection hlist with h1 h2
              injection h2 with h2a h2b
              injection h2b with hxe h3
              show evalLerpArgs m (te_eval m (optimize m xe)) (optimize m d) (optimize m r) =
                  evalLerpArgs m (te_eval m xe) d r
              rw [hxe, evalLerpArgs_opt]
          · simp [te_eval]
        case plain =>
          rcases ar with _ | (_ | (_ | (_ | ar4))) <;> simp only [te_eval] <;>
            rw [hlen, hlist]
      cases pu with
      | false => simp only [optimize, Bool.false_eq_true, if_false]
      | true =>
        simp only [optimize, if_true]
        by_cases hc : (optimizeList m args).all TE.isConst
        · simp only [hc, if_true]
          exact hcong
        · simp only [hc, if_false]
          exact hcong
  | .clos pu ar g cx args => by
      have hlen := optimizeList_length m args
      have hlist := opt_pres_list m args
      have hcong : te_eval m (.clos pu ar g cx (optimizeList m args)) =
          te_eval m (.clos pu ar g cx args) := by
        simp only [te_eval]
        rw [hlen, hlist]
      cases pu with
      | false => simp only [optimize, Bool.false_eq_true, if_false]
      | true =>
        simp only [optimize, if_true]
        by_cases hc : (optimizeList m args).all TE.isConst
        · simp only [hc, if_true]
          exact hcong
        · simp only [hc, if_false]
          exact hcong

theorem opt_pres_list (m : Mem) :
    (l : List TE) → te_evalList m (optimizeList m l) = te_evalList m l
  | [] => rfl
  | a :: as => by
      rw [optimizeList, te_evalList, opt_pres m a, opt_pres_list m as]
      rfl

end

/-- C1: for every compiled expression tree t and every fixed binding m of the
variables t references, running the constant-folding pass on t does not
change the result of evaluation: te_eval of the optimized tree equals
te_eval of the unoptimized tree. -/
theorem C1_constant_folding_preserves_eval (m : Mem) (t : TE) :
    te_eval m (optimize m t) = te_eval m t :=
  opt_pres m t


/- Concrete artifacts shared by witnesses and counterexamples. -/

/-- A heap with the array [3; 10, 20, 30] bound at address 0 and zero
everywhere else. -/
def mW : Mem := fun p o =>
  if p = 0 then [TD.fin 3, .fin 10, .fin 20, .fin 30].getD o .nan else .fin 0

/-- A heap whose every array has length field 0. -/
def mEmpty : Mem := fun _ _ => TD.fin 0

/-- A heap with an array of length 1 whose single data element is NaN. -/
def mNanElt : Mem := fun p o => if p = 0 ∧ o = 0 then .fin 1 else .nan

/-- A one-entry symbol table binding the scalar name a to address 7. -/
def lkA : List TeVar := [⟨['a'], .scalar 7⟩]

/- ---- C2: array indexing ---- -/

theorem c_int_natCast (L : ℕ) (h : (L : ℤ) < 2 ^ 31) : c_int (.fin (L : ℚ)) = L := by
  have ht : c_trunc ((L : ℕ) : ℚ) = (L : ℤ) := by simp [c_trunc]
  show (if c_trunc ((L : ℕ) : ℚ) < -(2 ^ 31) ∨ 2 ^ 31 - 1 < c_trunc ((L : ℕ) : ℚ)
        then -(2 ^ 31) else c_trunc ((L : ℕ) : ℚ)) = (L : ℤ)
  rw [ht, if_neg (by omega)]

/-- C2 (amended): with the array length L (< 2^31) in element 0 and the index
child evaluating to the finite double q, indexing truncates q toward zero to
i, yields element i+1 when 0 <= i < L and NaN otherwise; hence the result is
NaN iff i is out of range or element i+1 itself is NaN. -/
theorem C2_array_index_amended (m : Mem) (p : Ptr) (ix : TE) (q : ℚ) (L : ℕ)
    (hL : (L : ℤ) < 2 ^ 31)
    (hlen : m p 0 = .fin (L : ℚ))
    (hidx : te_eval m ix = .fin q) :
    (0 ≤ c_trunc q ∧ c_trunc q < (L : ℤ) →
        te_eval m (.arr p ix) = m p ((c_trunc q).toNat + 1)) ∧
    (¬(0 ≤ c_trunc q ∧ c_trunc q < (L : ℤ)) → te_eval m (.arr p ix) = .nan) ∧
    (te_eval m (.arr p ix) = .nan ↔
        (¬(0 ≤ c_trunc q ∧ c_trunc q < (L : ℤ)) ∨ m p ((c_trunc q).toNat + 1) = .nan)) := by
  have heval : te_eval m (.arr p ix) =
      (if c_int (.fin q) < 0 ∨ c_int (.fin (L : ℚ)) ≤ c_int (.fin q) then .nan
       else m p ((c_int (.fin q)).toNat + 1)) := by
    simp only [te_eval, hlen, hidx]
  rw [c_int_natCast L hL] at heval
  by_cases hbig : c_trunc q < -(2 ^ 31) ∨ 2 ^ 31 - 1 < c_trunc q
  · have hc : c_int (.fin q) = -(2 ^ 31) := by
      show (if c_trunc q < -(2 ^ 31) ∨ 2 ^ 31 - 1 < c_trunc q
            then -(2 ^ 31) else c_trunc q) = -(2 ^ 31)
      rw [if_pos hbig]
    rw [hc, if_pos (by omega : (-(2 ^ 31) : ℤ) < 0 ∨ (L : ℤ) ≤ -(2 ^ 31))] at heval
    have hout : ¬(0 ≤ c_trunc q ∧ c_trunc q < (L : ℤ)) := by omega
    refine ⟨fun hin => absurd hin hout, fun _ => heval, ?_⟩
    rw [heval]
    simp [hout]
  · have hc : c_int (.fin q) = c_trunc q := by
      show (if c_trunc q < -(2 ^ 31) ∨ 2 ^ 31 - 1 < c_trunc q
            then -(2 ^ 31) else c_trunc q) = c_trunc q
      rw [if_neg hbig]
    rw [hc] at heval
    by_cases hin : 0 ≤ c_trunc q ∧ c_trunc q < (L : ℤ)
    · rw [if_neg (by omega : ¬(c_trunc q < 0 ∨ (L : ℤ) ≤ c_trunc q))] at heval
      refine ⟨fun _ => heval, fun hout => absurd hin hout, ?_⟩
      rw [heval]
      simp [hin]
    · rw [if_pos (by omega : c_trunc q < 0 ∨ (L : ℤ) ≤ c_trunc q)] at heval
      refine ⟨fun hin' => absurd hin' hin, fun _ => heval, ?_⟩
      rw [heval]
      simp [hin]

theorem C2_witness :
    te_eval mW (.arr 0 (.const (.fin 1))) = mW 0 ((c_trunc 1).toNat + 1) :=
  (C2_array_index_amended mW 0 (.const (.fin 1)) 1 3 (by decide) (by decide) rfl).1 (by decide)

/-- C2 (counterexample to the claim as stated): an in-range access into an
array whose stored element is NaN returns NaN, so "returns NaN iff the
truncated index is out of [0, L)" fails. -/
theorem C2_counterexample :
    te_eval mNanElt (.arr 0 (.const (.fin 0))) = .nan ∧
    0 ≤ c_trunc 0 ∧ c_trunc 0 < 1 := by decide

/- ---- C4: aggregates over empty arrays ---- -/

/-- C4 (amended): on a bound array with length field 0, arrmin and arrmax
return NaN but sum returns 0.0. -/
theorem C4_empty_aggregate_amended (m : Mem) (pu : Bool) (p : Ptr)
    (h : m p 0 = .fin 0) :
    te_eval m (.func pu 1 .farrmin [.var p]) = .nan ∧
    te_eval m (.func pu 1 .farrmax [.var p]) = .nan ∧
    te_eval m (.func pu 1 .fsum [.var p]) = .fin 0 := by
  have hlen : c_int (m p 0) = 0 := by rw [h]; decide
  refine ⟨?_, ?_, ?_⟩
  · show evalAgg m te_arrmin [.var p] = .nan
    simp [evalAgg, te_arrmin, hlen]
  · show evalAgg m te_arrmax [.var p] = .nan
    simp [evalAgg, te_arrmax, hlen]
  · show evalAgg m te_sum [.var p] = .fin 0
    simp [evalAgg, te_sum, hlen, te_sum_loop]

theorem C4_witness :
    te_eval mEmpty (.func true 1 .farrmin [.var 5]) = .nan ∧
    te_eval mEmpty (.func true 1 .farrmax [.var 5]) = .nan ∧
    te_eval mEmpty (.func true 1 .fsum [.var 5]) = .fin 0 :=
  C4_empty_aggregate_amended mEmpty true 5 rfl

/-- C4 (counterexample to the claim as stated): sum over an empty array
evaluates to 0.0, not NaN. -/
theorem C4_counterexample :
    te_eval mEmpty (.func true 1 .fsum [.var 0]) = .fin 0 ∧ TD.fin 0 ≠ .nan := by decide

/- ---- C5: bitwise operators ---- -/

/-- The original claim's invalidity condition on an operand: negative or
exceeding 2^53 - 1 after rounding to nearest. -/
def roundedBadB : TD → Bool
  | .fin q => qltB (mkRat (c_round q) 1) 0 || qltB maxBitQ (mkRat (c_round q) 1)
  | _ => true

/-- The amended invalidity condition: NaN, infinite, negative before
rounding, or exceeding 2^53 - 1 after rounding. -/
def badOperandB : TD → Bool
  | .nan => true
  | .inf _ => true
  | .fin q => qltB q 0 || qltB maxBitQ (mkRat (c_round q) 1)

theorem valid_iff_not_bad (x : TD) : is_valid_bitwise_operand x = !badOperandB x := by
  cases x with
  | nan => rfl
  | inf s => cases s <;> rfl
  | fin q =>
      by_cases hq : qltB q 0 = true
      · have : td_ltB (.fin q) (.fin 0) = true := hq
        simp [is_valid_bitwise_operand, badOperandB, this, hq]
      · have hq' : qltB q 0 = false := Bool.eq_false_iff.mpr hq
        have hlt : td_ltB (.fin q) (.fin 0) = false := hq'
        simp only [is_valid_bitwise_operand, badOperandB, hlt, Bool.false_eq_true, if_false,
          hq', Bool.false_or, td_round, td_leB, qleB, qltB, Bool.not_not]
        rw [show Rat.blt q 0 = false from hq', Bool.false_or]

theorem valid_fin (x : TD) (h : is_valid_bitwise_operand x = true) : ∃ q, x = .fin q := by
  cases x with
  | fin q => exact ⟨q, rfl⟩
  | nan => exact absurd h (by decide)
  | inf s => cases s <;> exact absurd h (by decide)

/-- C5 (amended): the bitwise operators and xor return NaN iff either operand
is NaN, infinite, negative, or rounds (to nearest) above 2^53 - 1; on two
valid operands they return the bitwise AND/OR/XOR of the rounded values. -/
theorem C5_bitwise_amended (a b : TD) :
    (bitwise_and a b = .nan ↔ (badOperandB a || badOperandB b) = true) ∧
    (bitwise_or a b = .nan ↔ (badOperandB a || badOperandB b) = true) ∧
    (fn_xor a b = .nan ↔ (badOperandB a || badOperandB b) = true) ∧
    (∀ qa qb, a = .fin qa → b = .fin qb →
      badOperandB a = false → badOperandB b = false →
      bitwise_and a b = .fin (mkRat ((c_round qa).toNat &&& (c_round qb).toNat) 1) ∧
      bitwise_or a b = .fin (mkRat ((c_round qa).toNat ||| (c_round qb).toNat) 1) ∧
      fn_xor a b = .fin (mkRat ((c_round qa).toNat ^^^ (c_round qb).toNat) 1)) := by
  by_cases hbad : (badOperandB a || badOperandB b) = true
  · have hv : (!(is_valid_bitwise_operand a) || !(is_valid_bitwise_operand b)) = true := by
      rw [valid_iff_not_bad, valid_iff_not_bad, Bool.not_not, Bool.not_not]
      exact hbad
    have hand : bitwise_and a b = .nan := by unfold bitwise_and; rw [if_pos hv]
    have hor : bitwise_or a b = .nan := by unfold bitwise_or; rw [if_pos hv]
    have hxor : fn_xor a b = .nan := by unfold fn_xor; rw [if_pos hv]
    refine ⟨by simp [hand, hbad], by simp [hor, hbad], by simp [hxor, hbad], ?_⟩
    intro qa qb _ _ hna hnb
    rw [hna, hnb] at hbad
    simp at hbad
  · have hba : badOperandB a = false := by revert hbad; cases badOperandB a <;> simp
    have hbb : badOperandB b = false := by
      revert hbad; cases badOperandB a <;> cases badOperandB b <;> simp
    have hva : is_valid_bitwise_operand a = true := by rw [valid_iff_not_bad, hba]; rfl
    have hvb : is_valid_bitwise_operand b = true := by rw [valid_iff_not_bad, hbb]; rfl
    obtain ⟨qa, rfl⟩ := valid_fin a hva
    obtain ⟨qb, rfl⟩ := valid_fin b hvb
    have hcond : ¬((!(is_valid_bitwise_operand (TD.fin qa)) ||
        !(is_valid_bitwise_operand (TD.fin qb))) = true) := by
      rw [hva, hvb]; decide
    have hand : bitwise_and (.fin qa) (.fin qb) =
        .fin (mkRat ((c_round qa).toNat &&& (c_round qb).toNat) 1) := by
      unfold bitwise_and; rw [if_neg hcond]
    have hor : bitwise_or (.fin qa) (.fin qb) =
        .fin (mkRat ((c_round qa).toNat ||| (c_round qb).toNat) 1) := by
      unfold bitwise_or; rw [if_neg hcond]
    have hxor : fn_xor (.fin qa) (.fin qb) =
        .fin (mkRat ((c_round qa).toNat ^^^ (c_round qb).toNat) 1) := by
      unfold fn_xor; rw [if_neg hcond]
    have hbool : (badOperandB (.fin qa) || badOperandB (.fin qb)) ≠ true := hbad
    refine ⟨by simp [hand, hbool], by simp [hor, hbool], by simp [hxor, hbool], ?_⟩
    intro qa' qb' ha hb _ _
    injection ha with ha'
    injection hb with hb'
    subst ha'
    subst hb'
    exact ⟨hand, hor, hxor⟩

theorem C5_witness :
    bitwise_and (.fin 5) (.fin 3) =
      .fin (mkRat ((c_round 5).toNat &&& (c_round 3).toNat) 1) :=
  (((C5_bitwise_amended (.fin 5) (.fin 3)).2.2.2) 5 3 rfl rfl (by decide) (by decide)).1

/-- C5 (counterexample to the claim as stated): -0.3 rounds to nearest to 0,
which is neither negative nor above 2^53 - 1, yet the C guard tests the
operand before rounding, so 5 & -0.3 style operands give NaN; here
(-3/10) & 0 = NaN although both operands round to valid values. -/
theorem C5_counterexample :
    bitwise_and (.fin (mkRat (-3) 10)) (.fin 0) = .nan ∧
    roundedBadB (.fin (mkRat (-3) 10)) = false ∧
    roundedBadB (.fin 0) = false := by decide

/- ---- C6: by-reference array arguments ---- -/

/-- C6: a FUNCTION1 call to sum/arrlen/arrmin/arrmax with a variable first
argument passes that argument's bound pointer directly to the callable (the
argument is not evaluated to a double), and returns NaN when the argument is
not a variable node; a FUNCTION3 call to linear_interpolate does the same for
its two array arguments. -/
theorem C6_array_args_dispatch (m : Mem) (pu : Bool) (p dp rp : Ptr) (a b xe : TE)
    (rest : List TE) (ha : a.isVarB = false) (hb : b.isVarB = false) :
    (te_eval m (.func pu 1 .fsum (.var p :: rest)) = te_sum (fun i => m p i)) ∧
    (te_eval m (.func pu 1 .farrlen (.var p :: rest)) = te_arrlen (fun i => m p i)) ∧
    (te_eval m (.func pu 1 .farrmin (.var p :: rest)) = te_arrmin (fun i => m p i)) ∧
    (te_eval m (.func pu 1 .farrmax (.var p :: rest)) = te_arrmax (fun i => m p i)) ∧
    (te_eval m (.func pu 1 .fsum (a :: rest)) = .nan) ∧
    (te_eval m (.func pu 1 .farrlen (a :: rest)) = .nan) ∧
    (te_eval m (.func pu 1 .farrmin (a :: rest)) = .nan) ∧
    (te_eval m (.func pu 1 .farrmax (a :: rest)) = .nan) ∧
    (te_eval m (.func pu 3 .flerp [.var dp, .var rp, xe]) =
        te_lerp (fun i => m dp i) (fun i => m rp i) (te_eval m xe)) ∧
    (te_eval m (.func pu 3 .flerp [a, .var rp, xe]) = .nan) ∧
    (te_eval m (.func pu 3 .flerp [.var dp, b, xe]) = .nan) ∧
    (te_eval m (.func pu 3 .flerp [a, b, xe]) = .nan) :=
  ⟨rfl, rfl, rfl, rfl,
   evalAgg_not_var m te_sum a rest ha,
   evalAgg_not_var m te_arrlen a rest ha,
   evalAgg_not_var m te_arrmin a rest ha,
   evalAgg_not_var m te_arrmax a rest ha,
   rfl,
   evalLerpArgs_nv_left m (te_eval m xe) a (.var rp) ha,
   evalLerpArgs_nv_right m (te_eval m xe) (.var dp) b hb,
   evalLerpArgs_nv_left m (te_eval m xe) a b ha⟩

theorem C6_witness :
    te_eval mW (.func true 1 .fsum [.var 0]) = te_sum (fun i => mW 0 i) :=
  (C6_array_args_dispatch mW true 0 0 0 (.const (.fin 1)) (.const (.fin 1))
    (.const (.fin 1)) [] rfl rfl).1

/- ---- C10: division by zero ---- -/

/-- C10: the / operator is unguarded: "1/0" compiles (the optimizer folds it
to a literal +infinity) and a nonzero finite or infinite numerator divided by
zero yields a signed infinity, never NaN. -/
theorem C10_division_by_zero (m : Mem) (q : ℚ) (s : Bool) (hq : q ≠ 0) :
    te_compile 40 m ['1', '/', '0'] [] = (some (.const (.inf true)), 0) ∧
    td_div (.fin q) (.fin 0) = .inf (qltB 0 q) ∧
    td_div (.fin q) (.fin 0) ≠ .nan ∧
    td_div (.inf s) (.fin 0) ≠ .nan := by
  have hdiv : td_div (.fin q) (.fin 0) = .inf (qltB 0 q) := by
    show (if (0 : ℚ) == 0 then if q == 0 then TD.nan else .inf (qltB 0 q)
          else .fin (qdiv q 0)) = .inf (qltB 0 q)
    have h0 : ((0 : ℚ) == 0) = true := by decide
    have hq0 : (q == 0) = false := by simpa using hq
    rw [h0, if_pos rfl, hq0]
    simp
  exact ⟨rfl, hdiv, by rw [hdiv]; simp, by cases s <;> decide⟩

theorem C10_witness :
    te_compile 40 mW ['1', '/', '0'] [] = (some (.const (.inf true)), 0) :=
  (C10_division_by_zero mW 2 true (by decide)).1

/- ---- C3: postfix array indexing ---- -/

/-- C3 (amended): after a variable, the parser parses one bracketed index
group, producing an array-index node bound to the variable's pointer; but a
second postfix group always fails, because the left operand of the second
iteration is an array-index node, not a variable node. -/
theorem C3_postfix_amended (plist : PState → Option TE × PState) (fl : ℕ) (p : Ptr)
    (s : PState) (h : s.ttype.isOpenB = true) :
    postfixLoop plist (fl + 2) (.var p) s =
      match plist (next_token s) with
      | (none, s1) => (none, errState s1)
      | (some idx, s1) =>
          if s1.ttype.isCloseB then
            if (next_token s1).ttype.isOpenB then (none, errState (next_token s1))
            else (some (.arr p idx), next_token s1)
          else (none, errState s1) := by
  rw [show postfixLoop plist (fl + 2) (.var p) s =
      (if s.ttype.isOpenB = true
       then (match plist (next_token s) with
             | (none, s2) => ((none : Option TE), errState s2)
             | (some idx, s2) =>
                 if s2.ttype.isCloseB then
                   postfixLoop plist (fl + 1) (.arr p idx) (next_token s2)
                 else (none, errState s2))
       else (some (.var p), s)) from rfl, if_pos h]
  rcases plist (next_token s) with ⟨r, s1⟩
  cases r with
  | none => rfl
  | some idx => rfl

def sC3 : PState := ⟨['0', ']'], .topenB, lkA⟩

theorem C3_witness :
    postfixLoop ((mkParsers 10).plist) 5 (.var 7) sC3 =
      (some (.arr 7 (.const (.fin 0))), ⟨[], .tend, lkA⟩) :=
  (C3_postfix_amended ((mkParsers 10).plist) 3 7 sC3 rfl).trans rfl

/-- C3 (counterexample to the claim as stated): the two chained postfix
groups of a[0][1] do not compile; the parser fails (null tree, error -1). -/
theorem C3_counterexample :
    te_compile 40 mW ['a', '[', '0', ']', '[', '1', ']'] lkA = (none, -1) := rfl

/- ---- C9: compile error reporting ---- -/

/-- C9 (amended): after te_compile, the reported error is 0 iff the returned
tree is non-null; on failure the report is either the 1-based byte offset of
the error clamped up to 1, or -1 when the root parse returned a null tree
(the array-postfix error paths and allocation failure). -/
theorem C9_error_report_amended (fuel : ℕ) (m : Mem) (input : List Char)
    (lk : List TeVar) :
    ((te_compile fuel m input lk).2 = 0 ↔ (te_compile fuel m input lk).1.isSome) ∧
    ((te_compile fuel m input lk).1 = none →
      (te_compile fuel m input lk).2 = -1 ∨ 1 ≤ (te_compile fuel m input lk).2) := by
  unfold te_compile
  rcases hp : (mkParsers fuel).plist (next_token { rest := input, ttype := Tok.tnull, lookup := lk }) with ⟨r, s2⟩
  cases r with
  | none => simp [hp]
  | some root =>
      simp only [hp]
      by_cases he : s2.ttype.isEnd = true
      · simp [he]
      · simp only [he, Bool.false_eq_true, if_false]
        refine ⟨?_, fun _ => ?_⟩
        · by_cases hz : input.length - s2.rest.length = 0
          · simp [hz]
          · simp only [hz, if_false]
            simp only [Option.isSome_none, Bool.false_eq_true, iff_false]
            omega
        · by_cases hz : input.length - s2.rest.length = 0
          · simp [hz]
          · simp only [hz, if_false]
            right
            omega

theorem C9_witness :
    (te_compile 40 mW ['a', '['] lkA).2 = -1 ∨ 1 ≤ (te_compile 40 mW ['a', '['] lkA).2 :=
  (C9_error_report_amended 40 mW ['a', '['] lkA).2 rfl

/-- C9 (counterexample to the claim as stated): on the postfix parse failure
of "a[" the compile reports -1, not a 1-based byte offset clamped to at
least 1. -/
theorem C9_counterexample :
    (te_compile 40 mW ['a', '['] lkA).1 = none ∧ (te_compile 40 mW ['a', '['] lkA).2 < 1 :=
  ⟨rfl, by decide⟩

/- ---- C7: exact-arity argument lists ---- -/

/-- Modelled from the spec: "Function argument lists are NOT parsed by list:
they require exactly arity expressions separated by , and ending at )."
Parses exactly n comma-separated expressions then a closing parenthesis,
consuming the opening parenthesis / separator before each expression;
anything else is the error state. -/
def spec_args (pexpr : PState → Option TE × PState) :
    ℕ → PState → Option (List TE) × PState
  | 0, s => (none, errState s)
  | 1, s =>
      let s1 := next_token s
      match pexpr s1 with
      | (none, s2) => (none, s2)
      | (some t, s2) =>
          if s2.ttype.isClose then (some [t], next_token s2) else (none, errState s2)
  | n + 2, s =>
      let s1 := next_token s
      match pexpr s1 with
      | (none, s2) => (none, s2)
      | (some t, s2) =>
          if s2.ttype.isSep then
            match spec_args pexpr (n + 1) s2 with
            | (none, s3) => (none, s3)
            | (some ts, s3) => (some (t :: ts), s3)
          else (none, errState s2)

/-- Modelled from the spec: a call of arity n is an opening parenthesis
followed by exactly n expressions separated by commas and a closing
parenthesis; anything else is an error. -/
def spec_call (pexpr : PState → Option TE × PState) (ar : ℕ)
    (mk : List TE → TE) (s : PState) : Option TE × PState :=
  if s.ttype.isOpen then
    match spec_args pexpr ar s with
    | (none, s1) => (none, s1)
    | (some args, s1) => (some (mk args), s1)
  else (none, errState s)

/-- The spec-modelled exact-arity parser agrees with the C argument loop:
it succeeds exactly when the loop broke at the last parameter with a closing
parenthesis, and fails into the error state at the same lexer position
otherwise. -/
theorem tok_sep_not_close (t : Tok) (h : t.isSep = true) : t.isClose = false := by
  cases t <;> simp_all [Tok.isSep, Tok.isClose]

theorem argsLoop_succ (pexpr : PState → Option TE × PState) (r : ℕ) (s : PState) :
    argsLoop pexpr (r + 1) s =
      (match pexpr (next_token s) with
       | (none, s2) => ((none : Option (List TE)), false, s2)
       | (some t, s2) =>
           if s2.ttype.isSep then
             match argsLoop pexpr r s2 with
             | (none, b, s3) => (none, b, s3)
             | (some ts, b, s3) => (some (t :: ts), b, s3)
           else (some [t], true, s2)) := rfl

/-- The spec-modelled exact-arity parser agrees with the C argument loop:
it succeeds exactly when the loop broke at the last parameter with a closing
parenthesis, and fails into the error state at the same lexer position
otherwise. -/
theorem spec_args_eq (pexpr : PState → Option TE × PState) :
    (n : ℕ) → (s : PState) →
    spec_args pexpr n s =
      (match argsLoop pexpr n s with
       | (none, _, s1) => (none, s1)
       | (some args, broke, s1) =>
           if s1.ttype.isClose && broke && args.length = n then (some args, next_token s1)
           else (none, errState s1))
  | 0, s => by simp [spec_args, argsLoop]
  | 1, s => by
      rw [argsLoop_succ pexpr 0 s]
      simp only [spec_args, argsLoop]
      generalize pexpr (next_token s) = pr
      rcases pr with ⟨r, s2⟩
      cases r with
      | none => rfl
      | some t =>
          by_cases hsep : s2.ttype.isSep = true
          · have hcl := tok_sep_not_close _ hsep
            simp [hsep, hcl]
          · have hsep' : s2.ttype.isSep = false := Bool.eq_false_iff.mpr hsep
            simp only [hsep', Bool.false_eq_true, if_false]
            by_cases hcl : s2.ttype.isClose = true
            · simp [hcl]
            · simp [Bool.eq_false_iff.mpr hcl]
  | n + 2, s => by
      rw [argsLoop_succ pexpr (n + 1) s]
      simp only [spec_args]
      simp only [spec_args_eq pexpr (n + 1)]
      generalize pexpr (next_token s) = pr
      rcases pr with ⟨r, s2⟩
      cases r with
      | none => rfl
      | some t =>
          by_cases hsep : s2.ttype.isSep = true
          · simp only [hsep, if_true]
            generalize argsLoop pexpr (n + 1) s2 = ar1
            rcases ar1 with ⟨r2, b', s3⟩
            cases r2 with
            | none => rfl
            | some ts =>
                have hcond : (s3.ttype.isClose && b' && decide ((t :: ts).length = (n + 2))) =
                    (s3.ttype.isClose && b' && decide (ts.length = (n + 1))) := by
                  have hd : decide ((t :: ts).length = (n + 2)) = decide (ts.length = (n + 1)) :=
                    decide_eq_decide.mpr (by simp)
                  rw [hd]
                by_cases hc : (s3.ttype.isClose && b' && decide (ts.length = (n + 1))) = true
                · simp [hcond, hc]
                · simp [hcond, Bool.eq_false_iff.mpr hc]
          · have hsep' : s2.ttype.isSep = false := Bool.eq_false_iff.mpr hsep
            have hlen : (([t] : List TE).length = n + 2) = False := by simp
            simp [hsep', hlen]

/-- C7: for every function or closure of arity ar >= 2, the C call-argument
handling (fcall_args, used by base) is equivalent to the spec-modelled
exact-arity parser spec_call: both leave the identical lexer state (so any
arity mismatch puts the parser into the error state at the same position and
compile fails), and whenever either side accepts, both return the same call
node over the same ar parsed argument expressions. -/
theorem C7_exact_arity_call (pexpr : PState → Option TE × PState) (ar : ℕ)
    (mk : List TE → TE) (s : PState) (_har : 2 ≤ ar) :
    ((fcall_args pexpr ar mk s).2 = (spec_call pexpr ar mk s).2) ∧
    ((fcall_args pexpr ar mk s).2.ttype.isErr = false →
      (fcall_args pexpr ar mk s).1 = (spec_call pexpr ar mk s).1) ∧
    ((spec_call pexpr ar mk s).1.isSome = true →
      fcall_args pexpr ar mk s = spec_call pexpr ar mk s) := by
  unfold fcall_args spec_call
  rw [spec_args_eq pexpr ar s]
  by_cases hop : s.ttype.isOpen = true
  · simp only [hop, if_true]
    rcases argsLoop pexpr ar s with ⟨r, broke, s1⟩
    cases r with
    | none => simp
    | some args =>
        by_cases hc : (s1.ttype.isClose && broke && args.length = ar) = true
        · simp [hc]
        · simp [Bool.eq_false_iff.mpr hc, errState, Tok.isErr]
  · simp [Bool.eq_false_iff.mpr hop, errState, Tok.isErr]

def sC7 : PState := ⟨"1,2)".toList, .topen, []⟩

theorem C7_witness :
    (fcall_args ((mkParsers 20).pexpr) 2
        (fun args => TE.func true 2 (.plain (lift2 host_fn2)) args) sC7).2 =
      (spec_call ((mkParsers 20).pexpr) 2
        (fun args => TE.func true 2 (.plain (lift2 host_fn2)) args) sC7).2 :=
  (C7_exact_arity_call ((mkParsers 20).pexpr) 2
    (fun args => TE.func true 2 (.plain (lift2 host_fn2)) args) sC7 (by decide)).1

/- ---- C8: totality of constant folding on constant inputs ---- -/

mutual

/-- A tree is foldable when it has no variable and no array-index node and
every function or closure node is pure. -/
def goodT : TE → Bool
  | .const _ => true
  | .var _ => false
  | .arr _ _ => false
  | .func pu _ _ args => pu && goodL args
  | .clos pu _ _ _ args => pu && goodL args

def goodL : List TE → Bool
  | [] => true
  | a :: as => goodT a && goodL as

end

/-- A token that cannot introduce a variable or an impure call. -/
def tokOKB : Tok → Bool
  | .tvariable _ => false
  | .tfun pu _ _ => pu
  | .tclos pu _ _ _ => pu
  | _ => true

/-- A symbol-table entry that is a pure function or closure (not a scalar or
array variable). -/
def pureVarB : TeVar → Bool
  | ⟨_, .scalar _⟩ => false
  | ⟨_, .fn pu _ _⟩ => pu
  | ⟨_, .cl pu _ _ _⟩ => pu

def pureLkB (lk : List TeVar) : Bool := lk.all pureVarB

theorem functions_pure : functions.all pureVarB = true := rfl

mutual

theorem goodT_optimize (m : Mem) :
    (t : TE) → goodT t = true → (optimize m t).isConst = true
  | .const _, _ => rfl
  | .func pu ar g args, h => by
      have hp : pu = true := by
        cases pu
        · exact absurd h (by simp [goodT])
        · rfl
      have hl : goodL args = true := by
        rw [hp] at h
        simpa [goodT] using h
      have hall := goodL_optimize m args hl
      simp only [optimize, hp, if_true, hall, TE.isConst]
  | .clos pu ar g cx args, h => by
      have hp : pu = true := by
        cases pu
        · exact absurd h (by simp [goodT])
        · rfl
      have hl : goodL args = true := by
        rw [hp] at h
        simpa [goodT] using h
      have hall := goodL_optimize m args hl
      simp only [optimize, hp, if_true, hall, TE.isConst]

theorem goodL_optimize (m : Mem) :
    (l : List TE) → goodL l = true → (optimizeList m l).all TE.isConst = true
  | [], _ => rfl
  | a :: as, h => by
      have ha : goodT a = true := by
        have := h
        simp [goodL, Bool.and_eq_true] at this
        exact this.1
      have has : goodL as = true := by
        simp [goodL, Bool.and_eq_true] at h
        exact h.2
      simp only [optimizeList, List.all_cons, goodT_optimize m a ha,
        goodL_optimize m as has, Bool.and_self]

end

theorem find_builtin_loop_mem (nm : List Char) :
    (fl : ℕ) → (imin imax : ℤ) → (v : TeVar) →
    find_builtin_loop nm fl imin imax = some v → v ∈ functions
  | 0, _, _, _, h => by simp [find_builtin_loop] at h
  | fl + 1, imin, imax, v, h => by
      rw [find_builtin_loop] at h
      by_cases hlt : imax < imin
      · rw [if_pos hlt] at h
        exact absurd h (by simp)
      · rw [if_neg hlt] at h
        rcases hg : functions.get? (imin + (imax - imin) / 2).toNat with _ | w
        · simp only [hg] at h
          exact Option.noConfusion h
        · simp only [hg] at h
          by_cases hc0 : compareToken nm w.name = 0
          · rw [if_pos hc0] at h
            have : w = v := by injection h
            subst this
            exact List.get?_mem hg
          · rw [if_neg hc0] at h
            by_cases hcp : 0 < compareToken nm w.name
            · rw [if_pos hcp] at h
              exact find_builtin_loop_mem nm fl _ _ v h
            · rw [if_neg hcp] at h
              exact find_builtin_loop_mem nm fl _ _ v h

theorem find_builtin_pure (nm : List Char) (v : TeVar)
    (h : find_builtin nm = some v) : pureVarB v = true :=
  List.all_eq_true.mp functions_pure v (find_builtin_loop_mem nm 64 _ _ v h)

theorem find_lookup_pure (lk : List TeVar) (nm : List Char) (v : TeVar)
    (hlk : pureLkB lk = true) (h : find_lookup lk nm = some v) : pureVarB v = true :=
  List.all_eq_true.mp hlk v (List.mem_of_find?_eq_some h)

theorem identTok_ok (lk : List TeVar) (nm : List Char) (hlk : pureLkB lk = true) :
    tokOKB (identTok lk nm) = true := by
  unfold identTok
  rcases hfl : find_lookup lk nm with _ | v
  · rcases hfb : find_builtin nm with _ | w
    · simp [hfl, hfb, Option.orElse, tokOKB]
    · have hw := find_builtin_pure nm w hfb
      rcases w with ⟨nm', k⟩
      cases k <;> simp_all [hfl, hfb, Option.orElse, tokOKB, pureVarB]
  · have hv := find_lookup_pure lk nm v hlk hfl
    rcases v with ⟨nm', k⟩
    cases k <;> simp_all [hfl, Option.orElse, tokOKB, pureVarB]

theorem charTok_ok (c : Char) : tokOKB (charTok c) = true := by
  unfold charTok
  split <;> rfl

theorem next_token_aux_ok (lk : List TeVar) (hlk : pureLkB lk = true) :
    (cs : List Char) → tokOKB (next_token_aux lk cs).1 = true
  | [] => rfl
  | c :: cs => by
      rw [next_token_aux]
      by_cases hd : (cIsDigit c || c = '.') = true
      · simp only [hd, if_true]
        rfl
      · simp only [Bool.eq_false_iff.mpr hd, Bool.false_eq_true, if_false]
        by_cases ha : cIsAlpha c = true
        · simp only [ha, if_true]
          exact identTok_ok lk _ hlk
        · simp only [Bool.eq_false_iff.mpr ha, Bool.false_eq_true, if_false]
          by_cases hs : cIsSpace c = true
          · simp only [hs, if_true]
            exact next_token_aux_ok lk hlk cs
          · simp only [Bool.eq_false_iff.mpr hs, Bool.false_eq_true, if_false]
            exact charTok_ok c

theorem next_token_lookup (s : PState) : (next_token s).lookup = s.lookup := rfl

theorem next_token_ok (s : PState) (hlk : pureLkB s.lookup = true) :
    tokOKB (next_token s).ttype = true :=
  next_token_aux_ok s.lookup hlk s.rest

/-- Invariant carried by parse results under a pure symbol table: the table
is unchanged, the final token cannot introduce a variable or impure call,
and any returned tree is foldable unless the parser is in the error state. -/
def GoodR (lk : List TeVar) (res : Option TE × PState) : Prop :=
  res.2.lookup = lk ∧ tokOKB res.2.ttype = true ∧
    ∀ t, res.1 = some t → res.2.ttype = Tok.terror ∨ goodT t = true

def GoodP (lk : List TeVar) (pf : PState → Option TE × PState) : Prop :=
  ∀ s, s.lookup = lk → tokOKB s.ttype = true → GoodR lk (pf s)

theorem next_token_ok' (lk : List TeVar) (hlk : pureLkB lk = true) (s : PState)
    (hs : s.lookup = lk) :
    (next_token s).lookup = lk ∧ tokOKB (next_token s).ttype = true :=
  ⟨by rw [next_token_lookup, hs], next_token_ok s (by rw [hs]; exact hlk)⟩

theorem binLoop_succ (sub : PState → Option TE × PState) (ops : BinOp → Bool)
    (fl : ℕ) (acc : TE) (rest : List Char) (tt : Tok) (lkv : List TeVar) :
    binLoop sub ops (fl + 1) acc ⟨rest, tt, lkv⟩ =
      (match tt with
       | Tok.tinfixOp op =>
           if ops op then
             match sub (next_token ⟨rest, tt, lkv⟩) with
             | (none, s2) => (none, s2)
             | (some e, s2) =>
                 binLoop sub ops fl (.func true 2 (.plain (lift2 (binFn op))) [acc, e]) s2
           else (some acc, ⟨rest, tt, lkv⟩)
       | _ => (some acc, ⟨rest, tt, lkv⟩)) := rfl

theorem binLoop_good (lk : List TeVar) (hlk : pureLkB lk = true)
    (sub : PState → Option TE × PState) (hsub : GoodP lk sub) (ops : BinOp → Bool) :
    (fl : ℕ) → (acc : TE) → (s : PState) → s.lookup = lk → tokOKB s.ttype = true →
    (goodT acc = true ∨ s.ttype = Tok.terror) → GoodR lk (binLoop sub ops fl acc s)
  | 0, acc, s, hs, ht, _ => ⟨hs, ht, fun t h => Option.noConfusion h⟩
  | fl + 1, acc, ⟨rest, tt, lkv⟩, hs, ht, hacc => by
      rw [binLoop_succ]
      cases tt
      case terror => exact ⟨hs, ht, fun t _ => Or.inl rfl⟩
      case tinfixOp op =>
          by_cases hop : ops op = true
          · simp only [hop, if_true]
            have hnt := next_token_ok' lk hlk ⟨rest, .tinfixOp op, lkv⟩ hs
            have hsubres := hsub (next_token ⟨rest, .tinfixOp op, lkv⟩) hnt.1 hnt.2
            rcases hp : sub (next_token ⟨rest, .tinfixOp op, lkv⟩) with ⟨r, s2⟩
            rw [hp] at hsubres
            cases r with
            | none => exact ⟨hsubres.1, hsubres.2.1, fun t h => Option.noConfusion h⟩
            | some e =>
                apply binLoop_good lk hlk sub hsub ops fl _ s2 hsubres.1 hsubres.2.1
                by_cases herr : s2.ttype = Tok.terror
                · exact Or.inr herr
                · have hge : goodT e = true := by
                    rcases hsubres.2.2 e rfl with h | h
                    · exact absurd h herr
                    · exact h
                  have hgacc : goodT acc = true :=
                    hacc.elim id (fun hbad => Tok.noConfusion hbad)
                  left
                  simp [goodT, goodL, hgacc, hge]
          · simp only [Bool.eq_false_iff.mpr hop, Bool.false_eq_true, if_false]
            exact ⟨hs, ht, fun t h =>
              hacc.elim (fun hg => Or.inr (Option.some.inj h ▸ hg))
                (fun hbad => Tok.noConfusion hbad)⟩
      all_goals exact ⟨hs, ht, fun t h =>
        hacc.elim (fun hg => Or.inr (Option.some.inj h ▸ hg))
          (fun hbad => Tok.noConfusion hbad)⟩

theorem sepLoop_succ (sub : PState → Option TE × PState)
    (fl : ℕ) (acc : TE) (s : PState) :
    sepLoop sub (fl + 1) acc s =
      (if s.ttype.isSep then
         match sub (next_token s) with
         | (none, s2) => (none, s2)
         | (some e, s2) =>
             sepLoop sub fl (.func true 2 (.plain (lift2 td_comma)) [acc, e]) s2
       else (some acc, s)) := rfl

theorem tok_sep_not_err (t : Tok) (h : t.isSep = true) : ¬(t = Tok.terror) := by
  cases t <;> simp_all [Tok.isSep]

theorem sepLoop_good (lk : List TeVar) (hlk : pureLkB lk = true)
    (sub : PState → Option TE × PState) (hsub : GoodP lk sub) :
    (fl : ℕ) → (acc : TE) → (s : PState) → s.lookup = lk → tokOKB s.ttype = true →
    (goodT acc = true ∨ s.ttype = Tok.terror) → GoodR lk (sepLoop sub fl acc s)
  | 0, acc, s, hs, ht, _ => ⟨hs, ht, fun t h => Option.noConfusion h⟩
  | fl + 1, acc, s, hs, ht, hacc => by
      rw [sepLoop_succ]
      by_cases hsep : s.ttype.isSep = true
      · simp only [hsep, if_true]
        have hnt := next_token_ok' lk hlk s hs
        have hsubres := hsub (next_token s) hnt.1 hnt.2
        rcases hp : sub (next_token s) with ⟨r, s2⟩
        rw [hp] at hsubres
        cases r with
        | none => exact ⟨hsubres.1, hsubres.2.1, fun t h => Option.noConfusion h⟩
        | some e =>
            apply sepLoop_good lk hlk sub hsub fl _ s2 hsubres.1 hsubres.2.1
            by_cases herr : s2.ttype = Tok.terror
            · exact Or.inr herr
            · have hge : goodT e = true := by
                rcases hsubres.2.2 e rfl with h | h
                · exact absurd h herr
                · exact h
              have hgacc : goodT acc = true :=
                hacc.elim id (fun hbad => absurd hbad (tok_sep_not_err _ hsep))
              left
              simp [goodT, goodL, hgacc, hge]
      · simp only [Bool.eq_false_iff.mpr hsep, Bool.false_eq_true, if_false]
        exact ⟨hs, ht, fun t h =>
          hacc.elim (fun hg => Or.inr (Option.some.inj h ▸ hg)) Or.inl⟩

theorem signLoop_succ (fl : ℕ) (neg : Bool) (rest : List Char) (tt : Tok)
    (lkv : List TeVar) :
    signLoop (fl + 1) neg ⟨rest, tt, lkv⟩ =
      (match tt with
       | Tok.tinfixOp .badd => signLoop fl neg (next_token ⟨rest, tt, lkv⟩)
       | Tok.tinfixOp .bsub => signLoop fl (!neg) (next_token ⟨rest, tt, lkv⟩)
       | _ => (neg, ⟨rest, tt, lkv⟩)) := rfl

theorem signLoop_good (lk : List TeVar) (hlk : pureLkB lk = true) :
    (fl : ℕ) → (neg : Bool) → (s : PState) → s.lookup = lk → tokOKB s.ttype = true →
    (signLoop fl neg s).2.lookup = lk ∧ tokOKB (signLoop fl neg s).2.ttype = true
  | 0, neg, s, hs, ht => ⟨hs, ht⟩
  | fl + 1, neg, ⟨rest, tt, lkv⟩, hs, ht => by
      rw [signLoop_succ]
      cases tt
      case tinfixOp op =>
          have hnt := next_token_ok' lk hlk ⟨rest, .tinfixOp op, lkv⟩ hs
          cases op
          case badd => exact signLoop_good lk hlk fl neg _ hnt.1 hnt.2
          case bsub => exact signLoop_good lk hlk fl (!neg) _ hnt.1 hnt.2
          all_goals exact ⟨hs, ht⟩
      all_goals exact ⟨hs, ht⟩

theorem argsLoop_good (lk : List TeVar) (hlk : pureLkB lk = true)
    (pexpr : PState → Option TE × PState) (hpexpr : GoodP lk pexpr) :
    (r : ℕ) → (s : PState) → s.lookup = lk → tokOKB s.ttype = true →
    (argsLoop pexpr r s).2.2.lookup = lk ∧
    tokOKB (argsLoop pexpr r s).2.2.ttype = true ∧
    ∀ args, (argsLoop pexpr r s).1 = some args →
      ((argsLoop pexpr r s).2.2.ttype = Tok.terror ∨ goodL args = true)
  | 0, s, hs, ht => ⟨hs, ht, fun args h => by
      injection h with h
      subst h
      exact Or.inr rfl⟩
  | r + 1, s, hs, ht => by
      rw [argsLoop_succ]
      have hnt := next_token_ok' lk hlk s hs
      have hsubres := hpexpr (next_token s) hnt.1 hnt.2
      rcases hp : pexpr (next_token s) with ⟨re, s2⟩
      rw [hp] at hsubres
      cases re with
      | none => exact ⟨hsubres.1, hsubres.2.1, fun args h => Option.noConfusion h⟩
      | some t =>
          by_cases hsep : s2.ttype.isSep = true
          · simp only [hsep, if_true]
            have hrec := argsLoop_good lk hlk pexpr hpexpr r s2 hsubres.1 hsubres.2.1
            rcases hq : argsLoop pexpr r s2 with ⟨r2, b2, s3⟩
            rw [hq] at hrec
            cases r2 with
            | none => exact ⟨hrec.1, hrec.2.1, fun args h => Option.noConfusion h⟩
            | some ts =>
                refine ⟨hrec.1, hrec.2.1, fun args h => ?_⟩
                have hargs : t :: ts = args := Option.some.inj h
                subst hargs
                by_cases herr : s3.ttype = Tok.terror
                · exact Or.inl herr
                · have hts : goodL ts = true := by
                    rcases hrec.2.2 ts rfl with h2 | h2
                    · exact absurd h2 herr
                    · exact h2
                  have hgt : goodT t = true := by
                    rcases hsubres.2.2 t rfl with h2 | h2
                    · exact absurd h2 (tok_sep_not_err _ hsep)
                    · exact h2
                  right
                  simp [goodL, hgt, hts]
          · simp only [Bool.eq_false_iff.mpr hsep, Bool.false_eq_true, if_false]
            refine ⟨hsubres.1, hsubres.2.1, fun args h => ?_⟩
            have hargs : [t] = args := Option.some.inj h
            subst hargs
            by_cases herr : s2.ttype = Tok.terror
            · exact Or.inl herr
            · have hgt : goodT t = true := by
                rcases hsubres.2.2 t rfl with h2 | h2
                · exact absurd h2 herr
                · exact h2
              right
              simp [goodL, hgt]

theorem errState_lookup (s : PState) : (errState s).lookup = s.lookup := rfl

theorem fcall_args_good (lk : List TeVar) (hlk : pureLkB lk = true)
    (pexpr : PState → Option TE × PState) (hpexpr : GoodP lk pexpr) (ar : ℕ)
    (mk : List TE → TE) (hmk : ∀ l, goodL l = true → goodT (mk l) = true)
    (s : PState) (hs : s.lookup = lk) (ht : tokOKB s.ttype = true) :
    GoodR lk (fcall_args pexpr ar mk s) := by
  unfold fcall_args
  by_cases hop : s.ttype.isOpen = true
  · simp only [hop, if_true]
    have hargs := argsLoop_good lk hlk pexpr hpexpr ar s hs ht
    rcases hp : argsLoop pexpr ar s with ⟨r, broke, s1⟩
    rw [hp] at hargs
    cases r with
    | none => exact ⟨hargs.1, hargs.2.1, fun t h => Option.noConfusion h⟩
    | some args =>
        by_cases hc : (s1.ttype.isClose && broke && decide (args.length = ar)) = true
        · simp only [hc, if_true]
          have hnt := next_token_ok' lk hlk s1 hargs.1
          refine ⟨hnt.1, hnt.2, fun t h => ?_⟩
          have ht' : mk args = t := Option.some.inj h
          subst ht'
          have hcl : s1.ttype.isClose = true := by
            simp only [Bool.and_eq_true] at hc
            exact hc.1.1
          have hne : ¬(s1.ttype = Tok.terror) := by
            intro he
            rw [he] at hcl
            exact Bool.noConfusion hcl
          rcases hargs.2.2 args rfl with h2 | h2
          · exact absurd h2 hne
          · exact Or.inr (hmk args h2)
        · simp only [Bool.eq_false_iff.mpr hc, Bool.false_eq_true, if_false]
          exact ⟨hargs.1, rfl, fun t h => Or.inl rfl⟩
  · simp only [Bool.eq_false_iff.mpr hop, Bool.false_eq_true, if_false]
    exact ⟨hs, rfl, fun t h => Or.inl rfl⟩

theorem funTail_good (lk : List TeVar) (hlk : pureLkB lk = true) (P : Parsers)
    (hpow : GoodP lk P.ppower) (hexp : GoodP lk P.pexpr) (ar : ℕ)
    (mk : List TE → TE) (hmk : ∀ l, goodL l = true → goodT (mk l) = true)
    (s : PState) (hs : s.lookup = lk) :
    GoodR lk (funTail P ar mk s) := by
  have hnt := next_token_ok' lk hlk s hs
  unfold funTail
  match ar with
  | 0 =>
      by_cases hop : (next_token s).ttype.isOpen = true
      · simp only [hop, if_true]
        have hnt2 := next_token_ok' lk hlk (next_token s) hnt.1
        by_cases hcl : (next_token (next_token s)).ttype.isClose = true
        · simp only [hcl, if_true]
          have hnt3 := next_token_ok' lk hlk (next_token (next_token s)) hnt2.1
          exact ⟨hnt3.1, hnt3.2, fun t h => Or.inr (Option.some.inj h ▸ hmk [] rfl)⟩
        · simp only [Bool.eq_false_iff.mpr hcl, Bool.false_eq_true, if_false]
          exact ⟨hnt2.1, rfl, fun t h => Or.inl rfl⟩
      · simp only [Bool.eq_false_iff.mpr hop, Bool.false_eq_true, if_false]
        exact ⟨hnt.1, hnt.2, fun t h => Or.inr (Option.some.inj h ▸ hmk [] rfl)⟩
  | 1 =>
      have hres := hpow (next_token s) hnt.1 hnt.2
      show GoodR lk (match P.ppower (next_token s) with
                     | (none, s2) => (none, s2)
                     | (some a, s2) => (some (mk [a]), s2))
      rcases hp : P.ppower (next_token s) with ⟨r, s2⟩
      rw [hp] at hres
      cases r with
      | none => exact ⟨hres.1, hres.2.1, fun t h => Option.noConfusion h⟩
      | some a =>
          refine ⟨hres.1, hres.2.1, fun t h => ?_⟩
          have ht' : mk [a] = t := Option.some.inj h
          subst ht'
          by_cases herr : s2.ttype = Tok.terror
          · exact Or.inl herr
          · have hga : goodT a = true := by
              rcases hres.2.2 a rfl with h2 | h2
              · exact absurd h2 herr
              · exact h2
            exact Or.inr (hmk [a] (by simp [goodL, hga]))
  | n + 2 =>
      exact fcall_args_good lk hlk P.pexpr hexp (n + 2) mk hmk (next_token s) hnt.1 hnt.2

theorem baseFn_succ (P : Parsers) (f : ℕ) (rest : List Char) (tt : Tok)
    (lkv : List TeVar) :
    baseFn P f ⟨rest, tt, lkv⟩ =
      (match tt with
       | Tok.tnumber v => (some (.const v), next_token ⟨rest, tt, lkv⟩)
       | Tok.tvariable p =>
           postfixLoop P.plist f (.var p) (next_token ⟨rest, tt, lkv⟩)
       | Tok.tfun pu ar g =>
           funTail P ar (fun args => .func pu ar g args) ⟨rest, tt, lkv⟩
       | Tok.tclos pu ar g cx =>
           funTail P ar (fun args => .clos pu ar g cx args) ⟨rest, tt, lkv⟩
       | Tok.topen =>
           (match P.plist (next_token ⟨rest, tt, lkv⟩) with
            | (none, s2) => (none, s2)
            | (some t, s2) =>
                if s2.ttype.isClose then (some t, next_token s2)
                else (some t, errState s2))
       | _ => (some (.var 0), errState ⟨rest, tt, lkv⟩)) := rfl

theorem baseFn_good (lk : List TeVar) (hlk : pureLkB lk = true) (P : Parsers)
    (hlist : GoodP lk P.plist) (hpow : GoodP lk P.ppower) (hexp : GoodP lk P.pexpr)
    (f : ℕ) : GoodP lk (baseFn P f) := by
  intro s hs ht
  obtain ⟨rest, tt, lkv⟩ := s
  rw [baseFn_succ]
  cases tt
  case tnumber v =>
      have hnt := next_token_ok' lk hlk ⟨rest, .tnumber v, lkv⟩ hs
      exact ⟨hnt.1, hnt.2, fun t h => Or.inr (Option.some.inj h ▸ rfl)⟩
  case tvariable p => exact absurd ht (by simp [tokOKB])
  case tfun pu ar g =>
      have hpu : pu = true := ht
      subst hpu
      exact funTail_good lk hlk P hpow hexp ar _
        (fun l hl => by simp [goodT, hl]) ⟨rest, .tfun true ar g, lkv⟩ hs
  case tclos pu ar g cx =>
      have hpu : pu = true := ht
      subst hpu
      exact funTail_good lk hlk P hpow hexp ar _
        (fun l hl => by simp [goodT, hl]) ⟨rest, .tclos true ar g cx, lkv⟩ hs
  case topen =>
      have hnt := next_token_ok' lk hlk ⟨rest, .topen, lkv⟩ hs
      have hres := hlist (next_token ⟨rest, .topen, lkv⟩) hnt.1 hnt.2
      rcases hp : P.plist (next_token ⟨rest, .topen, lkv⟩) with ⟨r, s2⟩
      rw [hp] at hres
      cases r with
      | none => exact ⟨hres.1, hres.2.1, fun t h => Option.noConfusion h⟩
      | some t0 =>
          by_cases hcl : s2.ttype.isClose = true
          · simp only [hcl, if_true]
            have hnt2 := next_token_ok' lk hlk s2 hres.1
            refine ⟨hnt2.1, hnt2.2, fun t h => ?_⟩
            have ht' : t0 = t := Option.some.inj h
            subst ht'
            have hne : ¬(s2.ttype = Tok.terror) := by
              intro he
              rw [he] at hcl
              exact Bool.noConfusion hcl
            rcases hres.2.2 t0 rfl with h2 | h2
            · exact absurd h2 hne
            · exact Or.inr h2
          · simp only [Bool.eq_false_iff.mpr hcl, Bool.false_eq_true, if_false]
            exact ⟨hres.1, rfl, fun t h => Or.inl rfl⟩
  all_goals exact ⟨hs, rfl, fun t h => Or.inl rfl⟩

theorem powerFn_good (lk : List TeVar) (hlk : pureLkB lk = true) (P : Parsers)
    (hbase : GoodP lk P.pbase) (f : ℕ) : GoodP lk (powerFn P f) := by
  intro s hs ht
  unfold powerFn
  have hsl := signLoop_good lk hlk f false s hs ht
  rcases hp : signLoop f false s with ⟨neg, s1⟩
  rw [hp] at hsl
  have hres := hbase s1 hsl.1 hsl.2
  cases neg with
  | false => exact hres
  | true =>
      show GoodR lk (match P.pbase s1 with
                     | (none, s2) => (none, s2)
                     | (some b, s2) =>
                         (some (.func true 1 (.plain (lift1 td_negate)) [b]), s2))
      rcases hq : P.pbase s1 with ⟨r, s2⟩
      rw [hq] at hres
      cases r with
      | none => exact ⟨hres.1, hres.2.1, fun t h => Option.noConfusion h⟩
      | some b =>
          refine ⟨hres.1, hres.2.1, fun t h => ?_⟩
          have ht' : TE.func true 1 (.plain (lift1 td_negate)) [b] = t := Option.some.inj h
          subst ht'
          by_cases herr : s2.ttype = Tok.terror
          · exact Or.inl herr
          · have hgb : goodT b = true := by
              rcases hres.2.2 b rfl with h2 | h2
              · exact absurd h2 herr
              · exact h2
            right
            simp [goodT, goodL, hgb]

theorem factorFn_good (lk : List TeVar) (hlk : pureLkB lk = true) (P : Parsers)
    (hpow : GoodP lk P.ppower) (f : ℕ) : GoodP lk (factorFn P f) := by
  intro s hs ht
  unfold factorFn
  have hres := hpow s hs ht
  rcases hp : P.ppower s with ⟨r, s1⟩
  rw [hp] at hres
  cases r with
  | none => exact ⟨hres.1, hres.2.1, fun t h => Option.noConfusion h⟩
  | some t0 =>
      exact binLoop_good lk hlk P.ppower hpow _ f t0 s1 hres.1 hres.2.1
        ((hres.2.2 t0 rfl).symm.imp id id)

theorem termFn_good (lk : List TeVar) (hlk : pureLkB lk = true) (P : Parsers)
    (hfac : GoodP lk P.pfactor) (f : ℕ) : GoodP lk (termFn P f) := by
  intro s hs ht
  unfold termFn
  have hres := hfac s hs ht
  rcases hp : P.pfactor s with ⟨r, s1⟩
  rw [hp] at hres
  cases r with
  | none => exact ⟨hres.1, hres.2.1, fun t h => Option.noConfusion h⟩
  | some t0 =>
      exact binLoop_good lk hlk P.pfactor hfac _ f t0 s1 hres.1 hres.2.1
        ((hres.2.2 t0 rfl).symm.imp id id)

theorem exprFn_good (lk : List TeVar) (hlk : pureLkB lk = true) (P : Parsers)
    (hterm : GoodP lk P.pterm) (f : ℕ) : GoodP lk (exprFn P f) := by
  intro s hs ht
  unfold exprFn
  have hres := hterm s hs ht
  rcases hp : P.pterm s with ⟨r, s1⟩
  rw [hp] at hres
  cases r with
  | none => exact ⟨hres.1, hres.2.1, fun t h => Option.noConfusion h⟩
  | some t0 =>
      exact binLoop_good lk hlk P.pterm hterm _ f t0 s1 hres.1 hres.2.1
        ((hres.2.2 t0 rfl).symm.imp id id)

theorem listFn_good (lk : List TeVar) (hlk : pureLkB lk = true) (P : Parsers)
    (hexp : GoodP lk P.pexpr) (f : ℕ) : GoodP lk (listFn P f) := by
  intro s hs ht
  unfold listFn
  have hres := hexp s hs ht
  rcases hp : P.pexpr s with ⟨r, s1⟩
  rw [hp] at hres
  cases r with
  | none => exact ⟨hres.1, hres.2.1, fun t h => Option.noConfusion h⟩
  | some t0 =>
      exact sepLoop_good lk hlk P.pexpr hexp f t0 s1 hres.1 hres.2.1
        ((hres.2.2 t0 rfl).symm.imp id id)

/-- Under a symbol table containing only pure functions and closures, every
parser component preserves the table, never leaves a variable or impure
token, and produces only foldable trees outside the error state. -/
theorem parsers_good (lk : List TeVar) (hlk : pureLkB lk = true) :
    (f : ℕ) →
    GoodP lk (mkParsers f).plist ∧ GoodP lk (mkParsers f).pexpr ∧
    GoodP lk (mkParsers f).pterm ∧ GoodP lk (mkParsers f).pfactor ∧
    GoodP lk (mkParsers f).ppower ∧ GoodP lk (mkParsers f).pbase
  | 0 =>
      ⟨fun s hs ht => ⟨hs, ht, fun t h => Option.noConfusion h⟩,
       fun s hs ht => ⟨hs, ht, fun t h => Option.noConfusion h⟩,
       fun s hs ht => ⟨hs, ht, fun t h => Option.noConfusion h⟩,
       fun s hs ht => ⟨hs, ht, fun t h => Option.noConfusion h⟩,
       fun s hs ht => ⟨hs, ht, fun t h => Option.noConfusion h⟩,
       fun s hs ht => ⟨hs, ht, fun t h => Option.noConfusion h⟩⟩
  | f + 1 => by
      obtain ⟨hl, he, htm, hfc, hpw, hbs⟩ := parsers_good lk hlk f
      refine ⟨?_, ?_, ?_, ?_, ?_, ?_⟩
      · exact listFn_good lk hlk (mkParsers f) he f
      · exact exprFn_good lk hlk (mkParsers f) htm f
      · exact termFn_good lk hlk (mkParsers f) hfc f
      · exact factorFn_good lk hlk (mkParsers f) hpw f
      · exact powerFn_good lk hlk (mkParsers f) hbs f
      · exact baseFn_good lk hlk (mkParsers f) hl hpw he f

/-- C8: for every input expression over a symbol table containing only pure
functions and closures (in particular the empty table, where every
identifier resolves to a pure builtin), a successful compile returns a
single literal-constant node: constant folding is total on purely-constant
inputs. -/
theorem C8_constant_folding_total (fuel : ℕ) (m : Mem) (input : List Char)
    (lk : List TeVar) (t : TE) (hlk : pureLkB lk = true)
    (hc : (te_compile fuel m input lk).1 = some t) : t.isConst = true := by
  have hg := (parsers_good lk hlk fuel).1
  unfold te_compile at hc
  rcases hp : (mkParsers fuel).plist (next_token ⟨input, .tnull, lk⟩) with ⟨r, s2⟩
  simp only [hp] at hc
  cases r with
  | none => exact Option.noConfusion hc
  | some root =>
      by_cases he : s2.ttype.isEnd = true
      · simp only [he, if_true] at hc
        have hres := hg (next_token ⟨input, .tnull, lk⟩) rfl
          (next_token_ok ⟨input, .tnull, lk⟩ hlk)
        rw [hp] at hres
        have hroot : goodT root = true := by
          rcases hres.2.2 root rfl with h2 | h2
          · rw [h2] at he
            exact absurd he (by decide)
          · exact h2
        have hopt : optimize m root = t := Option.some.inj hc
        rw [← hopt]
        exact goodT_optimize m root hroot
      · simp only [he, Bool.false_eq_true, if_false] at hc
        exact Option.noConfusion hc

theorem C8_witness : TE.isConst (TE.const (TD.fin 3)) = true :=
  C8_constant_folding_total 40 mW ['1', '+', '2'] [] (TE.const (TD.fin 3)) rfl rfl

end Tinyexpr
